import Mathlib

/-!
# Verification of the LensKit k-NN similarity and scoring core

A shallow embedding, over exact rationals, of the item/user k-NN
collaborative-filtering core of LensKit: the per-row similarity computation
(`_sim_row`), the block scheduler (`_sim_blocks`), the streaming
weighted-average and sum aggregators (`_predict_weighted_average`,
`_predict_sum`), the constructor configuration checks of `ItemKNNScorer` and
`UserKNNScorer`, and the prediction entry point `ItemKNNScorer.__call__`.

Floating-point values are modelled as rationals (ℚ); the not-a-number sentinel
used for unscoreable candidates is modelled as `Option ℚ` with `none` for NaN;
Python exceptions are modelled with `Except String`.
-/

/-- Dot product of two dense vectors. -/
def dot (xs ys : List ℚ) : ℚ :=
  (List.zipWith (· * ·) xs ys).sum

/-- Dense matrix–vector multiply (`torch.mv` / `safe_spmv`): one dot product of
`row` against every row of `matrix`. -/
def mv (matrix : List (List ℚ)) (row : List ℚ) : List ℚ :=
  matrix.map (fun r => dot r row)

/-- `torch.clamp v (-1) 1`. -/
def clamp1 (v : ℚ) : ℚ :=
  max (-1) (min 1 v)

/-- `torch.topk(vals, k, sorted=False)` over `(column, value)` pairs followed by
`argsort` on the selected column indices, as `_sim_row` does when truncating:
keep the `k` pairs largest by value (ties broken by the selection order of the
sort), then reorder the kept pairs by column index ascending. -/
def topkByValueSortByCol (k : ℕ) (pairs : List (ℕ × ℚ)) : List (ℕ × ℚ) :=
  ((pairs.mergeSort (fun a b => decide (b.2 ≤ a.2))).take k).mergeSort
    (fun a b => decide (a.1 ≤ b.1))

/-- The `(column, similarity)` pairs of `_sim_row` that survive the
`sim >= min_sim` threshold, after the self-similarity entry `sim[item] = 0`
has been written (`mask` / `cols` / `vals` in the source). -/
def keptPairs (item : ℕ) (matrix : List (List ℚ)) (row : List ℚ) (min_sim : ℚ) :
    List (ℕ × ℚ) :=
  (((mv matrix row).set item 0).enum).filter (fun p => decide (min_sim ≤ p.2))

/-- The pairs `_sim_row` selects after the conditional truncation
(`max_nbrs is not None and max_nbrs > 0 and max_nbrs < vals.shape[0]`). -/
def selPairs (item : ℕ) (matrix : List (List ℚ)) (row : List ℚ) (min_sim : ℚ)
    (max_nbrs : Option ℕ) : List (ℕ × ℚ) :=
  let kept := keptPairs item matrix row min_sim
  match max_nbrs with
  | some k => if 0 < k ∧ k < kept.length then topkByValueSortByCol k kept else kept
  | none => kept

/-- `_sim_row(item, matrix, row, min_sim, max_nbrs)` from
`lenskit/knn/item.py` (the same function appears in `algorithms/knn/item.py`):
dot `row` against every row of the matrix, zero the self-similarity entry,
keep the entries `≥ min_sim`, truncate to the `max_nbrs` largest (re-sorted by
column), and clamp the kept values to `[-1, 1]`.  Returns
`(count, column indices, values)`.  The first branch is the early return for a
row with no stored entries. -/
def simRow (item : ℕ) (matrix : List (List ℚ)) (row : List ℚ) (min_sim : ℚ)
    (max_nbrs : Option ℕ) : ℕ × List ℕ × List ℚ :=
  if row.all (· = 0) then (0, [], [])
  else
    let sel := selPairs item matrix row min_sim max_nbrs
    (sel.length, sel.map Prod.fst, (sel.map Prod.snd).map clamp1)

theorem enumFrom_pairwise_fst_lt {α : Type} (n : ℕ) (l : List α) :
    (List.enumFrom n l).Pairwise (fun a b => a.1 < b.1) := by
  induction l generalizing n with
  | nil => simp
  | cons x xs ih =>
    refine List.Pairwise.cons ?_ (ih (n + 1))
    intro y hy
    have h := List.mem_enumFrom (show (y.1, y.2) ∈ List.enumFrom (n + 1) xs by simpa using hy)
    simpa using h.1

theorem enum_pairwise_fst_lt {α : Type} (l : List α) :
    l.enum.Pairwise (fun a b => a.1 < b.1) :=
  enumFrom_pairwise_fst_lt 0 l

/-- The truncation step only selects pairs from its input. -/
theorem topkByValueSortByCol_subset (k : ℕ) (pairs : List (ℕ × ℚ)) :
    topkByValueSortByCol k pairs ⊆ pairs := by
  intro p hp
  have h1 := (List.mergeSort_perm
    ((pairs.mergeSort (fun a b => decide (b.2 ≤ a.2))).take k)
    (fun a b => decide (a.1 ≤ b.1))).subset hp
  have h2 := (List.take_sublist k (pairs.mergeSort (fun a b => decide (b.2 ≤ a.2)))).subset h1
  exact (List.mergeSort_perm pairs (fun a b => decide (b.2 ≤ a.2))).subset h2

/-- The truncation step keeps the column indices pairwise distinct. -/
theorem topkByValueSortByCol_pairwise_ne (k : ℕ) (pairs : List (ℕ × ℚ))
    (h : pairs.Pairwise (fun a b => a.1 ≠ b.1)) :
    (topkByValueSortByCol k pairs).Pairwise (fun a b => a.1 ≠ b.1) := by
  have hsym : ∀ {x y : ℕ × ℚ}, x.1 ≠ y.1 → y.1 ≠ x.1 := fun h => h.symm
  have h1 : (pairs.mergeSort (fun a b => decide (b.2 ≤ a.2))).Pairwise
      (fun a b => a.1 ≠ b.1) :=
    ((List.mergeSort_perm pairs (fun a b => decide (b.2 ≤ a.2))).pairwise_iff hsym).2 h
  have h2 := h1.sublist (List.take_sublist k _)
  unfold topkByValueSortByCol
  exact ((List.mergeSort_perm ((pairs.mergeSort (fun a b => decide (b.2 ≤ a.2))).take k)
    (fun a b => decide (a.1 ≤ b.1))).pairwise_iff hsym).2 h2

/-- After truncation the selected pairs are sorted by column index. -/
theorem topkByValueSortByCol_sorted_fst_le (k : ℕ) (pairs : List (ℕ × ℚ)) :
    (topkByValueSortByCol k pairs).Pairwise (fun a b => a.1 ≤ b.1) := by
  have h := @List.sorted_mergeSort (ℕ × ℚ) (fun a b => decide (a.1 ≤ b.1))
    (by intro a b c hab hbc; simp only [decide_eq_true_eq] at *; omega)
    (by intro a b; simpa using Nat.le_total a.1 b.1)
    ((pairs.mergeSort (fun a b => decide (b.2 ≤ a.2))).take k)
  exact h.imp (by simp)

theorem topkByValueSortByCol_length (k : ℕ) (pairs : List (ℕ × ℚ)) :
    (topkByValueSortByCol k pairs).length ≤ k := by
  simp only [topkByValueSortByCol, List.length_mergeSort, List.length_take]
  omega

theorem clamp1_mem_Icc (v : ℚ) : -1 ≤ clamp1 v ∧ clamp1 v ≤ 1 := by
  unfold clamp1
  constructor
  · exact le_max_left _ _
  · exact max_le (by norm_num) (min_le_left _ _)

theorem clamp1_ge_min (m v : ℚ) (h : m ≤ v) : min m 1 ≤ clamp1 v := by
  unfold clamp1
  have : min m 1 ≤ min 1 v := le_min (min_le_right _ _) (le_trans (min_le_left _ _) h)
  exact le_trans this (le_max_right _ _)

theorem keptPairs_pairwise_fst_lt (item : ℕ) (matrix : List (List ℚ)) (row : List ℚ)
    (min_sim : ℚ) :
    (keptPairs item matrix row min_sim).Pairwise (fun a b => a.1 < b.1) :=
  (enum_pairwise_fst_lt _).filter _

theorem selPairs_subset (item : ℕ) (matrix : List (List ℚ)) (row : List ℚ)
    (min_sim : ℚ) (max_nbrs : Option ℕ) :
    selPairs item matrix row min_sim max_nbrs ⊆ keptPairs item matrix row min_sim := by
  unfold selPairs
  cases max_nbrs with
  | none => exact fun _ h => h
  | some k =>
    by_cases hk : 0 < k ∧ k < (keptPairs item matrix row min_sim).length
    · simpa [hk] using topkByValueSortByCol_subset k (keptPairs item matrix row min_sim)
    · simp [hk]

theorem selPairs_pairwise_fst_lt (item : ℕ) (matrix : List (List ℚ)) (row : List ℚ)
    (min_sim : ℚ) (max_nbrs : Option ℕ) :
    (selPairs item matrix row min_sim max_nbrs).Pairwise (fun a b => a.1 < b.1) := by
  have hkept := keptPairs_pairwise_fst_lt item matrix row min_sim
  unfold selPairs
  cases max_nbrs with
  | none => exact hkept
  | some k =>
    by_cases hk : 0 < k ∧ k < (keptPairs item matrix row min_sim).length
    · simp only [hk, and_self, if_true]
      have hne := topkByValueSortByCol_pairwise_ne k _ (hkept.imp (fun h => Nat.ne_of_lt h))
      have hle := topkByValueSortByCol_sorted_fst_le k (keptPairs item matrix row min_sim)
      exact (hle.and hne).imp (fun h => lt_of_le_of_ne h.1 h.2)
    · simpa [hk] using hkept

theorem selPairs_length_le (item : ℕ) (matrix : List (List ℚ)) (row : List ℚ)
    (min_sim : ℚ) (k : ℕ) (hk : 0 < k) :
    (selPairs item matrix row min_sim (some k)).length ≤ k := by
  unfold selPairs
  by_cases h : 0 < k ∧ k < (keptPairs item matrix row min_sim).length
  · simpa [h] using topkByValueSortByCol_length k (keptPairs item matrix row min_sim)
  · simp only [h, if_false]
    omega

theorem keptPairs_mem_le (item : ℕ) (matrix : List (List ℚ)) (row : List ℚ)
    (min_sim : ℚ) (p : ℕ × ℚ) (hp : p ∈ keptPairs item matrix row min_sim) :
    min_sim ≤ p.2 := by
  have := (List.mem_filter.1 hp).2
  simpa using this

/-- C1 (amended).  For every input matrix and every configuration with
positive `min_sim` and positive `max_neighbors`, each per-row neighbor list
produced by the similarity block computer (`_sim_row`) is sorted by column
index ascending, has length at most `max_neighbors`, and every stored
similarity value is `≥ min min_sim 1` and lies within `[-1, 1]`.  (The
original claim's bound `≥ min_sim` fails when `min_sim > 1`, because the
clamp to `[-1, 1]` runs after the threshold filter; for any `min_sim ≤ 1` the
two bounds coincide.) -/
theorem simRow_sorted_bounded_clamped (item : ℕ) (matrix : List (List ℚ))
    (row : List ℚ) (min_sim : ℚ) (k : ℕ) (hpos : 0 < min_sim) (hk : 0 < k) :
    (simRow item matrix row min_sim (some k)).2.1.Pairwise (· < ·) ∧
      (simRow item matrix row min_sim (some k)).2.1.length ≤ k ∧
      (simRow item matrix row min_sim (some k)).2.2.length ≤ k ∧
      ∀ v ∈ (simRow item matrix row min_sim (some k)).2.2,
        min min_sim 1 ≤ v ∧ -1 ≤ v ∧ v ≤ 1 := by
  by_cases hrow : row.all (· = 0)
  · simp [simRow, hrow]
  · have hlen := selPairs_length_le item matrix row min_sim k hk
    simp only [simRow, if_neg hrow]
    refine ⟨List.pairwise_map.2 ?_, by simpa using hlen, by simpa using hlen, ?_⟩
    · exact (selPairs_pairwise_fst_lt item matrix row min_sim (some k)).imp (fun h => h)
    · intro v hv
      simp only [List.mem_map] at hv
      obtain ⟨v₀, hv₀, rfl⟩ := hv
      obtain ⟨p, hp, rfl⟩ := hv₀
      have hmem := selPairs_subset item matrix row min_sim (some k) hp
      have hge := keptPairs_mem_le item matrix row min_sim p hmem
      exact ⟨clamp1_ge_min min_sim p.2 hge, (clamp1_mem_Icc p.2).1, (clamp1_mem_Icc p.2).2⟩

/-- Witness for C1's theorem at a concrete input. -/
theorem simRow_sorted_bounded_clamped_witness :
    (0:ℚ) < 1 ∧ 0 < 1 ∧
      ((simRow 0 [[1], [1]] [1] 1 (some 1)).2.1.Pairwise (· < ·) ∧
        (simRow 0 [[1], [1]] [1] 1 (some 1)).2.1.length ≤ 1 ∧
        (simRow 0 [[1], [1]] [1] 1 (some 1)).2.2.length ≤ 1 ∧
        ∀ v ∈ (simRow 0 [[1], [1]] [1] 1 (some 1)).2.2,
          min (1:ℚ) 1 ≤ v ∧ -1 ≤ v ∧ v ≤ 1) :=
  ⟨by norm_num, by norm_num,
    simRow_sorted_bounded_clamped 0 [[1], [1]] [1] 1 1 (by norm_num) (by norm_num)⟩

/-- Counterexample to C1 as stated: with the positive threshold `min_sim = 2`
and positive `max_neighbors = 5`, the matrix `[[2], [1]]` (row 0 against the
matrix has dot products `[4, 2]`) stores the single neighbor value
`clamp(2) = 1`, which is *below* `min_sim`. -/
theorem simRow_value_below_min_sim_cex :
    (simRow 0 [[2], [1]] [2] 2 (some 5)).2.2 = [1] ∧ ¬ ((2:ℚ) ≤ 1) := by
  constructor
  · norm_num [simRow, selPairs, keptPairs, mv, dot, clamp1, List.enum_cons,
      List.enumFrom, List.filter]
  · norm_num

/-- C5 (amended).  For every input matrix and every configuration with a
*positive* `min_sim`, row `i` never appears in its own neighbor list: the
self-similarity entry is zeroed before the threshold filter, and `0 < min_sim`
removes it.  (The unrestricted claim fails: `ItemKNNScorer.__init__` lets a
negative `min_sim` through with only a warning, and then row `i`'s zeroed
self-entry passes the threshold.) -/
theorem simRow_no_self_neighbor (item : ℕ) (matrix : List (List ℚ)) (row : List ℚ)
    (min_sim : ℚ) (max_nbrs : Option ℕ) (hpos : 0 < min_sim) :
    item ∉ (simRow item matrix row min_sim max_nbrs).2.1 := by
  by_cases hrow : row.all (· = 0)
  · simp [simRow, hrow]
  · simp only [simRow, if_neg hrow]
    intro hmem
    obtain ⟨p, hp, hp1⟩ := List.mem_map.1 hmem
    have hkept := selPairs_subset item matrix row min_sim max_nbrs hp
    have hge := keptPairs_mem_le item matrix row min_sim p hkept
    have henum : ((mv matrix row).set item 0)[p.1]? = some p.2 :=
      List.mem_enum_iff_getElem?.1 (List.mem_filter.1 hkept).1
    rw [hp1, List.getElem?_set] at henum
    simp only [if_pos rfl] at henum
    by_cases hlt : item < (mv matrix row).length
    · rw [if_pos hlt] at henum
      have : p.2 = 0 := by injection henum with h; exact h.symm
      rw [this] at hge
      exact absurd (lt_of_lt_of_le hpos hge) (lt_irrefl 0)
    · rw [if_neg hlt] at henum
      exact Option.noConfusion henum

/-- Witness for C5's theorem at a concrete input. -/
theorem simRow_no_self_neighbor_witness :
    (0:ℚ) < 1 ∧ 0 ∉ (simRow 0 [[1], [1]] [1] 1 none).2.1 :=
  ⟨by norm_num, simRow_no_self_neighbor 0 [[1], [1]] [1] 1 none (by norm_num)⟩

/-- Counterexample to C5 as stated: `min_sim = -1` is a configuration
`ItemKNNScorer.__init__` accepts (it only warns on negative thresholds and
does not change the value), and with it row 0 of the matrix `[[1], [1]]`
lists itself as a neighbor: the zeroed self-similarity `0 ≥ -1` survives the
filter. -/
theorem simRow_self_neighbor_cex :
    0 ∈ (simRow 0 [[1], [1]] [1] (-1) none).2.1 := by
  norm_num [simRow, selPairs, keptPairs, mv, dot, List.enum_cons,
    List.enumFrom, List.filter]

/-- `MAX_BLOCKS` from `lenskit/knn/item.py`. -/
def MAX_BLOCKS : ℕ := 1024

/-- The block boundaries `_sim_blocks` iterates over: Python's
`range(0, nitems, block_size)`, each block running from `start` to
`min(start + block_size, nitems)`. -/
def blockRanges (nitems block_size : ℕ) : List (ℕ × ℕ) :=
  (List.range ((nitems + block_size - 1) / block_size)).map
    (fun b => (b * block_size, min (b * block_size + block_size) nitems))

/-- The effective block size `ItemKNNScorer._compute_similarities` passes to
`_sim_blocks`: `max(self.block_size, nitems // MAX_BLOCKS)`. -/
def effectiveBlockSize (block_size nitems : ℕ) : ℕ :=
  max block_size (nitems / MAX_BLOCKS)

/-- `_sim_block(matrix, start, end, min_sim, max_nbrs)`: run `_sim_row` on the
rows `start ≤ i < end` of the matrix and return the per-row counts together
with the concatenated column indices and values. -/
def simBlock (matrix : List (List ℚ)) (start stop : ℕ) (min_sim : ℚ)
    (max_nbrs : Option ℕ) : List ℕ × List ℕ × List ℚ :=
  let rows := (List.range' start (stop - start)).map
    (fun i => simRow i matrix (matrix.getD i []) min_sim max_nbrs)
  (rows.map (fun r => r.1), (rows.map (fun r => r.2.1)).flatten,
    (rows.map (fun r => r.2.2)).flatten)

/-- Inclusive prefix sums starting from `acc` (`torch.cumsum`). -/
def cumsum : List ℕ → ℕ → List ℕ
  | [], _ => []
  | x :: xs, acc => (acc + x) :: cumsum xs (acc + x)

/-- The compressed-row output of `_sim_blocks`: offsets (`crow_indices`),
column indices and values. -/
structure CsrOut where
  crow : List ℕ
  cols : List ℕ
  vals : List ℚ

/-- `_sim_blocks(matrix, min_sim, max_nbrs, block_size)`: compute every block,
prepend `[0]` to the concatenated per-row counts, take `cumsum` to get the
compressed-row offsets, and concatenate all column indices and values in row
order. -/
def simBlocks (matrix : List (List ℚ)) (min_sim : ℚ) (max_nbrs : Option ℕ)
    (block_size : ℕ) : CsrOut :=
  let blocks := (blockRanges matrix.length block_size).map
    (fun p => simBlock matrix p.1 p.2 min_sim max_nbrs)
  { crow := cumsum (0 :: (blocks.map (fun b => b.1)).flatten) 0
    cols := (blocks.map (fun b => b.2.1)).flatten
    vals := (blocks.map (fun b => b.2.2)).flatten }

theorem cumsum_length (l : List ℕ) (acc : ℕ) : (cumsum l acc).length = l.length := by
  induction l generalizing acc with
  | nil => rfl
  | cons x xs ih => simp [cumsum, ih]

theorem cumsum_getLast? (l : List ℕ) (acc : ℕ) (h : l ≠ []) :
    (cumsum l acc).getLast? = some (acc + l.sum) := by
  induction l generalizing acc with
  | nil => exact absurd rfl h
  | cons x xs ih =>
    cases xs with
    | nil => simp [cumsum]
    | cons y ys =>
      have hstep : cumsum (x :: y :: ys) acc
          = (acc + x) :: cumsum (y :: ys) (acc + x) := rfl
      have hcc : cumsum (y :: ys) (acc + x)
          = (acc + x + y) :: cumsum ys (acc + x + y) := rfl
      rw [hstep, hcc, List.getLast?_cons_cons, ← hcc, ih (acc + x) (by simp)]
      simp only [List.sum_cons, Option.some.injEq]
      omega

theorem ceil_div_mul_ge (n bs : ℕ) (hbs : 0 < bs) : n ≤ (n + bs - 1) / bs * bs := by
  have h := Nat.div_add_mod (n + bs - 1) bs
  have hr : (n + bs - 1) % bs < bs := Nat.mod_lt _ hbs
  rw [Nat.mul_comm]
  omega

theorem range_blocks_flatten (n bs m : ℕ) :
    ((List.range m).map
        (fun b => List.range' (b * bs) (min (b * bs + bs) n - b * bs))).flatten
      = List.range' 0 (min (m * bs) n) := by
  induction m with
  | zero => simp
  | succ m ih =>
    rw [List.range_succ, List.map_append, List.flatten_append, ih]
    simp only [List.map_cons, List.map_nil, List.flatten_cons, List.flatten_nil,
      List.append_nil]
    by_cases h : n ≤ m * bs
    · have h0 : min (m * bs) n = n := min_eq_right h
      have h1 : min (m * bs + bs) n - m * bs = 0 := by
        have : min (m * bs + bs) n = n := min_eq_right (le_trans h (Nat.le_add_right _ _))
        omega
      have h2 : min ((m + 1) * bs) n = n := by
        rw [Nat.succ_mul]
        exact min_eq_right (le_trans h (Nat.le_add_right _ _))
      rw [h0, h1, h2]
      simp
    · push_neg at h
      have h0 : min (m * bs) n = m * bs := min_eq_left (le_of_lt h)
      rw [h0]
      have happ := List.range'_append 0 (m * bs) (min (m * bs + bs) n - m * bs) 1
      simp only [one_mul, Nat.zero_add] at happ
      rw [happ]
      congr 1
      rw [Nat.succ_mul]
      omega

/-- The blocks of `_sim_blocks` partition the row indices `[0, n)` in order. -/
theorem blockRanges_flatten (n bs : ℕ) (hbs : 0 < bs) :
    ((blockRanges n bs).map (fun p => List.range' p.1 (p.2 - p.1))).flatten
      = List.range n := by
  have hgen := range_blocks_flatten n bs ((n + bs - 1) / bs)
  have hmin : min ((n + bs - 1) / bs * bs) n = n :=
    min_eq_right (ceil_div_mul_ge n bs hbs)
  rw [hmin] at hgen
  rw [List.range_eq_range', ← hgen]
  unfold blockRanges
  rw [List.map_map]
  rfl

theorem blockRanges_sum_sizes (n bs : ℕ) (hbs : 0 < bs) :
    ((blockRanges n bs).map (fun p => p.2 - p.1)).sum = n := by
  have h := congrArg List.length (blockRanges_flatten n bs hbs)
  simpa [List.length_flatten, List.map_map, Function.comp_def, List.length_range'] using h

theorem simRow_count_eq (item : ℕ) (matrix : List (List ℚ)) (row : List ℚ)
    (min_sim : ℚ) (max_nbrs : Option ℕ) :
    (simRow item matrix row min_sim max_nbrs).1
        = (simRow item matrix row min_sim max_nbrs).2.1.length ∧
      (simRow item matrix row min_sim max_nbrs).1
        = (simRow item matrix row min_sim max_nbrs).2.2.length := by
  by_cases hrow : row.all (· = 0) <;> simp [simRow, hrow]

theorem simBlock_counts_length (matrix : List (List ℚ)) (s e : ℕ) (min_sim : ℚ)
    (max_nbrs : Option ℕ) :
    (simBlock matrix s e min_sim max_nbrs).1.length = e - s := by
  simp [simBlock]

theorem simBlock_count_sum (matrix : List (List ℚ)) (s e : ℕ) (min_sim : ℚ)
    (max_nbrs : Option ℕ) :
    (simBlock matrix s e min_sim max_nbrs).1.sum
        = (simBlock matrix s e min_sim max_nbrs).2.1.length ∧
      (simBlock matrix s e min_sim max_nbrs).1.sum
        = (simBlock matrix s e min_sim max_nbrs).2.2.length := by
  unfold simBlock
  simp only [List.length_flatten, List.map_map]
  constructor <;>
  · congr 1
    apply List.map_congr_left
    intro i _
    simp only [Function.comp_apply]
    first
    | exact (simRow_count_eq i matrix (matrix.getD i []) min_sim max_nbrs).1
    | exact (simRow_count_eq i matrix (matrix.getD i []) min_sim max_nbrs).2

/-- C2.  For every input matrix and every positive block size, after
`_sim_blocks` concatenates all per-block results the compressed-row offset
array has exactly `n_rows + 1` entries and its final entry equals both the
total length of the concatenated neighbor-index array and the total length of
the concatenated neighbor-value array: the assertions at the end of
`_sim_blocks` never fail. -/
theorem simBlocks_structural_integrity (matrix : List (List ℚ)) (min_sim : ℚ)
    (max_nbrs : Option ℕ) (block_size : ℕ) (hbs : 0 < block_size) :
    (simBlocks matrix min_sim max_nbrs block_size).crow.length = matrix.length + 1 ∧
      (simBlocks matrix min_sim max_nbrs block_size).crow.getLast?
        = some (simBlocks matrix min_sim max_nbrs block_size).cols.length ∧
      (simBlocks matrix min_sim max_nbrs block_size).crow.getLast?
        = some (simBlocks matrix min_sim max_nbrs block_size).vals.length := by
  unfold simBlocks
  simp only [List.length_flatten, List.sum_flatten, List.map_map, Function.comp_def,
    cumsum_length, List.length_cons]
  rw [cumsum_getLast? _ _ (by simp), List.sum_cons, List.sum_flatten, List.map_map,
    Function.comp_def]
  set br := blockRanges matrix.length block_size with hbr
  have hc : (br.map (fun p => (simBlock matrix p.1 p.2 min_sim max_nbrs).1.length)).sum
      = matrix.length := by
    rw [List.map_congr_left
      (fun p _ => simBlock_counts_length matrix p.1 p.2 min_sim max_nbrs)]
    exact blockRanges_sum_sizes matrix.length block_size hbs
  have hcols : (br.map (fun p => (simBlock matrix p.1 p.2 min_sim max_nbrs).1.sum)).sum
      = (br.map (fun p => (simBlock matrix p.1 p.2 min_sim max_nbrs).2.1.length)).sum := by
    rw [List.map_congr_left
      (fun p _ => (simBlock_count_sum matrix p.1 p.2 min_sim max_nbrs).1)]
  have hvals : (br.map (fun p => (simBlock matrix p.1 p.2 min_sim max_nbrs).1.sum)).sum
      = (br.map (fun p => (simBlock matrix p.1 p.2 min_sim max_nbrs).2.2.length)).sum := by
    rw [List.map_congr_left
      (fun p _ => (simBlock_count_sum matrix p.1 p.2 min_sim max_nbrs).2)]
  refine ⟨by rw [hc], ?_, ?_⟩ <;> simp only [Nat.zero_add, Option.some.injEq]
  · exact hcols
  · exact hvals

/-- Witness for C2's theorem at a concrete input. -/
theorem simBlocks_structural_integrity_witness :
    0 < 2 ∧
      ((simBlocks [[1, 0], [0, 1], [1, 1]] 1 (some 1) 2).crow.length = 3 + 1 ∧
        (simBlocks [[1, 0], [0, 1], [1, 1]] 1 (some 1) 2).crow.getLast?
          = some (simBlocks [[1, 0], [0, 1], [1, 1]] 1 (some 1) 2).cols.length ∧
        (simBlocks [[1, 0], [0, 1], [1, 1]] 1 (some 1) 2).crow.getLast?
          = some (simBlocks [[1, 0], [0, 1], [1, 1]] 1 (some 1) 2).vals.length) :=
  ⟨by decide,
    simBlocks_structural_integrity [[1, 0], [0, 1], [1, 1]] 1 (some 1) 2 (by decide)⟩

theorem blockRanges_length_bound (n b : ℕ) (hb : 1 ≤ b) :
    (blockRanges n (effectiveBlockSize b n)).length ≤ 2 * MAX_BLOCKS - 1 := by
  have hbs1 : 1 ≤ effectiveBlockSize b n := le_trans hb (le_max_left _ _)
  have hq : n / 1024 ≤ effectiveBlockSize b n := by
    have h := le_max_right b (n / MAX_BLOCKS)
    simpa [MAX_BLOCKS, effectiveBlockSize] using h
  set bs := effectiveBlockSize b n
  have hlen : (blockRanges n bs).length = (n + bs - 1) / bs := by
    simp [blockRanges]
  rw [hlen]
  have hmod := Nat.div_add_mod n 1024
  have hr : n % 1024 < 1024 := Nat.mod_lt _ (by norm_num)
  have hmul : 1024 * (n / 1024) ≤ 1024 * bs := Nat.mul_le_mul_left _ hq
  have h1023 : 1023 ≤ 1023 * bs := Nat.le_mul_of_pos_right _ (by omega)
  have hsplit : 2048 * bs = 1024 * bs + 1023 * bs + bs := by ring
  have hn : n + bs - 1 < 2048 * bs := by omega
  have hfin : (n + bs - 1) / bs < 2048 := (Nat.div_lt_iff_lt_mul (by omega)).2 (by omega)
  simp only [MAX_BLOCKS]
  omega

/-- C7 (amended).  For every matrix with `n` rows and every configured
`block_size ≥ 1`, the block scheduler partitions the row indices `[0, n)` into
contiguous blocks of effective size `max(configured_block_size,
n // MAX_BLOCKS)`, and the number of block tasks dispatched never exceeds
`2 * MAX_BLOCKS - 1 = 2047`.  (The original claim's cap of exactly
`MAX_BLOCKS = 1024` tasks does not hold: `n // MAX_BLOCKS` rounds down, so for
example `n = 256001` with `block_size = 250` dispatches 1025 tasks.) -/
theorem blockScheduler_partition_and_task_bound (n block_size : ℕ)
    (hb : 1 ≤ block_size) :
    ((blockRanges n (effectiveBlockSize block_size n)).map
        (fun p => List.range' p.1 (p.2 - p.1))).flatten = List.range n ∧
      (blockRanges n (effectiveBlockSize block_size n)).length ≤ 2 * MAX_BLOCKS - 1 :=
  ⟨blockRanges_flatten n (effectiveBlockSize block_size n)
      (lt_of_lt_of_le Nat.one_pos (le_trans hb (le_max_left _ _))),
    blockRanges_length_bound n block_size hb⟩

/-- Witness for C7's theorem at a concrete input. -/
theorem blockScheduler_partition_and_task_bound_witness :
    1 ≤ 250 ∧
      (((blockRanges 600 (effectiveBlockSize 250 600)).map
          (fun p => List.range' p.1 (p.2 - p.1))).flatten = List.range 600 ∧
        (blockRanges 600 (effectiveBlockSize 250 600)).length ≤ 2 * MAX_BLOCKS - 1) :=
  ⟨by decide, blockScheduler_partition_and_task_bound 600 250 (by decide)⟩

/-- Counterexample to C7 as stated: for `n = 256001` rows and
`block_size = 250`, the effective block size is
`max(250, 256001 // 1024) = 250` and the scheduler dispatches
`ceil(256001 / 250) = 1025 > 1024 = MAX_BLOCKS` block tasks. -/
theorem blockRanges_exceed_MAX_BLOCKS_cex :
    (blockRanges 256001 (effectiveBlockSize 250 256001)).length = 1025 ∧
      ¬ (1025 ≤ MAX_BLOCKS) := by
  constructor
  · simp [blockRanges, effectiveBlockSize, MAX_BLOCKS]
  · simp [MAX_BLOCKS]

/-- The smallest positive normal 32-bit float,
`np.finfo("f4").smallest_normal` = 2^(-126). -/
def smallestNormalF32 : ℚ :=
  ((2 : ℚ) ^ (126 : ℕ))⁻¹

/-- The `min_sim` handling of `ItemKNNScorer.__init__` (`lenskit/knn/item.py`):
a negative threshold only triggers a warning and is kept; a zero threshold is
replaced by the smallest positive normal float32 with a warning.  Returns the
resulting `min_sim` and whether a warning was emitted. -/
def itemKnnInitMinSim (min_sim : ℚ) : ℚ × Bool :=
  if min_sim < 0 then (min_sim, true)
  else if min_sim = 0 then (smallestNormalF32, true)
  else (min_sim, false)

/-- The `min_sim` handling of `UserKNNScorer.__init__` (`lenskit/knn/user.py`):
a negative threshold raises `ValueError`; a zero threshold is replaced by the
smallest positive normal float32 with a warning. -/
def userKnnInitMinSim (min_sim : ℚ) : Except String (ℚ × Bool) :=
  if min_sim < 0 then .error "minimum similarity must be positive"
  else if min_sim = 0 then .ok (smallestNormalF32, true)
  else .ok (min_sim, false)

/-- C4 (amended).  A configured `min_sim` of exactly 0 is coerced upward to the
smallest representable positive normal 32-bit float with a diagnostic warning
in both scorers; but a *negative* `min_sim` is not: `ItemKNNScorer` keeps the
negative value (warning only) and `UserKNNScorer` rejects it with a
`ValueError`.  (The original claim — every `min_sim ≤ 0` coerced, never
rejected — fails for every negative value.) -/
theorem knn_min_sim_coercion (s : ℚ) :
    (s = 0 → itemKnnInitMinSim s = (smallestNormalF32, true) ∧
      userKnnInitMinSim s = .ok (smallestNormalF32, true)) ∧
    (s < 0 → itemKnnInitMinSim s = (s, true) ∧
      userKnnInitMinSim s = .error "minimum similarity must be positive") := by
  constructor
  · rintro rfl
    constructor <;> simp [itemKnnInitMinSim, userKnnInitMinSim]
  · intro hneg
    constructor <;> simp [itemKnnInitMinSim, userKnnInitMinSim, hneg]

/-- Witness for C4's theorem at concrete inputs. -/
theorem knn_min_sim_coercion_witness :
    (itemKnnInitMinSim 0 = (smallestNormalF32, true) ∧
      userKnnInitMinSim 0 = .ok (smallestNormalF32, true)) ∧
    ((-1 : ℚ) < 0 ∧ itemKnnInitMinSim (-1) = (-1, true) ∧
      userKnnInitMinSim (-1) = .error "minimum similarity must be positive") :=
  ⟨(knn_min_sim_coercion 0).1 rfl,
    by norm_num, ((knn_min_sim_coercion (-1)).2 (by norm_num)).1,
    ((knn_min_sim_coercion (-1)).2 (by norm_num)).2⟩

/-- Counterexample to C4 as stated: at `min_sim = -1` (which is `≤ 0`),
`ItemKNNScorer.__init__` keeps the value `-1` — which is not the smallest
positive normal float — and `UserKNNScorer.__init__` raises instead of
coercing. -/
theorem knn_min_sim_negative_cex :
    (itemKnnInitMinSim (-1)).1 = -1 ∧ (-1 : ℚ) ≠ smallestNormalF32 ∧
      userKnnInitMinSim (-1) = .error "minimum similarity must be positive" := by
  refine ⟨by norm_num [itemKnnInitMinSim], ?_, by norm_num [userKnnInitMinSim]⟩
  intro h
  have : (0 : ℚ) < smallestNormalF32 := by
    rw [smallestNormalF32]
    norm_num
  rw [← h] at this
  norm_num at this

/-- The `min_nbrs` handling of `ItemKNNScorer.__init__` (`lenskit/knn/item.py`,
also `ItemItem.__init__` in `algorithms/knn/item.py`): any value below 1 is
replaced by 1. -/
def itemKnnInitMinNbrs (min_nbrs : ℤ) : ℤ :=
  if min_nbrs < 1 then 1 else min_nbrs

/-- The `min_nbrs` handling of `UserKNNScorer.__init__` (`lenskit/knn/user.py`):
the argument is stored unchanged — there is no floor. -/
def userKnnInitMinNbrs (min_nbrs : ℤ) : ℤ :=
  min_nbrs

/-- C9 (amended).  The minimum-neighbor floor of 1 holds for the item scorer
only: for every constructor argument `min_nbrs < 1`, `ItemKNNScorer`'s
effective `min_nbrs` after construction equals 1, while `UserKNNScorer` stores
the argument unchanged (no floor). -/
theorem knn_min_nbrs_floor (m : ℤ) (h : m < 1) :
    itemKnnInitMinNbrs m = 1 ∧ userKnnInitMinNbrs m = m := by
  constructor
  · simp [itemKnnInitMinNbrs, h]
  · rfl

/-- Witness for C9's theorem at a concrete input. -/
theorem knn_min_nbrs_floor_witness :
    (0 : ℤ) < 1 ∧ itemKnnInitMinNbrs 0 = 1 ∧ userKnnInitMinNbrs 0 = 0 :=
  ⟨by decide, knn_min_nbrs_floor 0 (by decide)⟩

/-- Counterexample to C9 as stated: with constructor argument `min_nbrs = 0`
(`< 1`), `UserKNNScorer`'s stored `min_nbrs` is 0, not 1. -/
theorem user_knn_min_nbrs_no_floor_cex :
    userKnnInitMinNbrs 0 = 0 ∧ (0 : ℤ) ≠ 1 := by
  exact ⟨rfl, by decide⟩

/-- `torch.finfo().max` for the default float32 dtype,
`(2 - 2^-23) * 2^127`: the initial value of the per-candidate
minimum-similarity watermark `nbr_min`. -/
def finfoF32Max : ℚ :=
  (2 ^ 24 - 1) * 2 ^ 104

/-- Pointwise update of a per-candidate accumulator (`tensor[c] = v`). -/
def upd {β : Type} (f : ℕ → β) (c : ℕ) (v : β) : ℕ → β :=
  fun x => if x = c then v else f x

/-- First minimum of a buffer row with its index (`torch.min(..., dim=1)`
returns the first minimal entry).  The empty case is unreachable in use (the
slow path only runs on full buffers). -/
def listMinIdx : List ℚ → ℕ × ℚ
  | [] => (0, finfoF32Max)
  | [x] => (0, x)
  | x :: y :: ys =>
    let r := listMinIdx (y :: ys)
    if x ≤ r.2 then (0, x) else (r.1 + 1, r.2)

/-- The accumulator state of `_predict_weighted_average`
(`algorithms/knn/item.py`): per-candidate running weighted sum (`scores`),
similarity sum (`t_sims`), neighbor count (`counts`), the similarity and
value buffers (`nbr_sims`, `nbr_vals`, rows of width `max_nbrs` modelled as
lists of the entries written so far), and the minimum watermark (`nbr_min`). -/
@[ext]
structure WAState where
  scores : ℕ → ℚ
  t_sims : ℕ → ℚ
  counts : ℕ → ℕ
  nbr_sims : ℕ → List ℚ
  nbr_vals : ℕ → List ℚ
  nbr_min : ℕ → ℚ

/-- One `(candidate, similarity)` entry of a model row processed by
`_predict_weighted_average` for a rated item with rating `rate`: the fast path
appends to the buffer and accumulates; the slow path (full buffer) replaces
the minimum-similarity slot when the new similarity beats the watermark.
The per-entry processing is equivalent to the source's vectorized scatter
because a CSR row's column indices are distinct. -/
def waPair (max_nbrs : ℕ) (rate : ℚ) (s : WAState) (p : ℕ × ℚ) : WAState :=
  if s.counts p.1 < max_nbrs then
    { scores := upd s.scores p.1 (s.scores p.1 + p.2 * rate)
      t_sims := upd s.t_sims p.1 (s.t_sims p.1 + |p.2|)
      counts := upd s.counts p.1 (s.counts p.1 + 1)
      nbr_sims := upd s.nbr_sims p.1 (s.nbr_sims p.1 ++ [p.2])
      nbr_vals := upd s.nbr_vals p.1 (s.nbr_vals p.1 ++ [p.2 * rate])
      nbr_min := upd s.nbr_min p.1 (min (s.nbr_min p.1) p.2) }
  else if s.nbr_min p.1 < p.2 then
    let m := listMinIdx (s.nbr_sims p.1)
    let newSims := (s.nbr_sims p.1).set m.1 (|p.2|)
    { scores := upd s.scores p.1 (s.scores p.1 + (p.2 * rate - (s.nbr_vals p.1).getD m.1 0))
      t_sims := upd s.t_sims p.1 (s.t_sims p.1 + (|p.2| - |m.2|))
      counts := s.counts
      nbr_sims := upd s.nbr_sims p.1 newSims
      nbr_vals := upd s.nbr_vals p.1 ((s.nbr_vals p.1).set m.1 (p.2 * rate))
      nbr_min := upd s.nbr_min p.1 (listMinIdx newSims).2 }
  else s

/-- The zero-initialized accumulator state of `_predict_weighted_average`. -/
def waInit : WAState :=
  { scores := fun _ => 0
    t_sims := fun _ => 0
    counts := fun _ => 0
    nbr_sims := fun _ => []
    nbr_vals := fun _ => []
    nbr_min := fun _ => finfoF32Max }

/-- Processing of one rated item's model row by `_predict_weighted_average`. -/
def waRow (max_nbrs : ℕ) (s : WAState) (rate : ℚ) (row : List (ℕ × ℚ)) : WAState :=
  row.foldl (waPair max_nbrs rate) s

/-- The main loop of `_predict_weighted_average`: process the model row of
every rated item (`for i, iidx in enumerate(rated)`), with `rate_v[i]` the
centered rating of `rated[i]`. -/
def waLoop (model : List (List (ℕ × ℚ))) (max_nbrs : ℕ) (rate_v : List ℚ)
    (rated : List ℕ) : WAState :=
  (rated.zip rate_v).foldl (fun s p => waRow max_nbrs s p.2 (model.getD p.1 []))
    waInit

/-- `_predict_weighted_average(model, (min_nbrs, max_nbrs), rate_v, rated)`
(`algorithms/knn/item.py`): run the accumulation loop, then score each
candidate with at least `min_nbrs` recorded neighbors as
`scores[c] / t_sims[c]` and every other candidate as NaN (`none`). -/
def predictWeightedAverage (model : List (List (ℕ × ℚ))) (min_nbrs max_nbrs : ℕ)
    (rate_v : List ℚ) (rated : List ℕ) : ℕ → Option ℚ :=
  let s := waLoop model max_nbrs rate_v rated
  fun c => if min_nbrs ≤ s.counts c then some (s.scores c / s.t_sims c) else none

/-- `ItemItem.predict_for_user` with the weighted-average aggregate: after the
aggregation, when centering was applied at training time the per-item mean is
added back onto every score (`sims += self.item_means_`; NaN stays NaN). -/
def predictForUserWA (model : List (List (ℕ × ℚ))) (min_nbrs max_nbrs : ℕ)
    (rate_v : List ℚ) (rated : List ℕ) (center : Bool) (means : ℕ → ℚ) :
    ℕ → Option ℚ :=
  fun c => (predictWeightedAverage model min_nbrs max_nbrs rate_v rated c).map
    (fun q => if center then q + means c else q)

/-- The accumulator state of `_predict_sum` (`algorithms/knn/item.py`):
it tracks no weighted sum and no value buffer. -/
@[ext]
structure SumState where
  t_sims : ℕ → ℚ
  counts : ℕ → ℕ
  nbr_sims : ℕ → List ℚ
  nbr_min : ℕ → ℚ

/-- One `(candidate, similarity)` entry processed by `_predict_sum`:
like `waPair` but accumulating plain similarities. -/
def sumPair (max_nbrs : ℕ) (s : SumState) (p : ℕ × ℚ) : SumState :=
  if s.counts p.1 < max_nbrs then
    { t_sims := upd s.t_sims p.1 (s.t_sims p.1 + p.2)
      counts := upd s.counts p.1 (s.counts p.1 + 1)
      nbr_sims := upd s.nbr_sims p.1 (s.nbr_sims p.1 ++ [p.2])
      nbr_min := upd s.nbr_min p.1 (min (s.nbr_min p.1) p.2) }
  else if s.nbr_min p.1 < p.2 then
    let m := listMinIdx (s.nbr_sims p.1)
    let newSims := (s.nbr_sims p.1).set m.1 p.2
    { t_sims := upd s.t_sims p.1 (s.t_sims p.1 - m.2 + p.2)
      counts := s.counts
      nbr_sims := upd s.nbr_sims p.1 newSims
      nbr_min := upd s.nbr_min p.1 (listMinIdx newSims).2 }
  else s

/-- The zero-initialized accumulator state of `_predict_sum`. -/
def sumInit : SumState :=
  { t_sims := fun _ => 0
    counts := fun _ => 0
    nbr_sims := fun _ => []
    nbr_min := fun _ => finfoF32Max }

/-- The main loop of `_predict_sum` (the rating values are ignored). -/
def sumLoop (model : List (List (ℕ × ℚ))) (max_nbrs : ℕ) (rated : List ℕ) :
    SumState :=
  rated.foldl (fun s i => (model.getD i []).foldl (sumPair max_nbrs) s) sumInit

/-- `_predict_sum(model, (min_nbrs, max_nbrs), rate_v, rated)`
(`algorithms/knn/item.py`): accumulate, then report `t_sims[c]` for each
candidate with at least `min_nbrs` neighbors and NaN (`none`) otherwise. -/
def predictSum (model : List (List (ℕ × ℚ))) (min_nbrs max_nbrs : ℕ)
    (rate_v : List ℚ) (rated : List ℕ) : ℕ → Option ℚ :=
  let s := sumLoop model max_nbrs rated
  fun c => if min_nbrs ≤ s.counts c then some (s.t_sims c) else none

/-- C3.  In weighted-average scoring, after all rated entities of a query are
processed, every candidate whose accumulated neighbor count is at least
`min_nbrs` receives the final score weighted-sum divided by similarity-sum,
plus the candidate's own stored mean when centering was applied at training
time, and every candidate whose count is below `min_nbrs` receives the
not-a-number sentinel (`none`). -/
theorem predictForUserWA_final_scores (model : List (List (ℕ × ℚ)))
    (min_nbrs max_nbrs : ℕ) (rate_v : List ℚ) (rated : List ℕ) (center : Bool)
    (means : ℕ → ℚ) (c : ℕ) :
    predictForUserWA model min_nbrs max_nbrs rate_v rated center means c
      = if min_nbrs ≤ (waLoop model max_nbrs rate_v rated).counts c then
          some ((waLoop model max_nbrs rate_v rated).scores c
              / (waLoop model max_nbrs rate_v rated).t_sims c
            + (if center then means c else 0))
        else none := by
  unfold predictForUserWA predictWeightedAverage
  by_cases h : min_nbrs ≤ (waLoop model max_nbrs rate_v rated).counts c
  · cases center <;> simp [h]
  · simp [h]

theorem foldl_flatMap {α β σ : Type} (l : List α) (f : α → List β) (g : σ → β → σ)
    (init : σ) :
    (l.flatMap f).foldl g init = l.foldl (fun s a => (f a).foldl g s) init := by
  induction l generalizing init with
  | nil => rfl
  | cons a l ih => rw [List.flatMap_cons, List.foldl_append, List.foldl_cons, ih]

/-- All stored `(column, similarity)` entries scoring touches, in processing
order: the model rows of the rated items, concatenated. -/
def ratedEntries (model : List (List (ℕ × ℚ))) (rated : List ℕ) : List (ℕ × ℚ) :=
  rated.flatMap (fun i => model.getD i [])

/-- The number of stored entries for candidate `c` among the rated items'
rows — the neighborhood size of candidate `c` for this query. -/
def nbrCount (model : List (List (ℕ × ℚ))) (rated : List ℕ) (c : ℕ) : ℕ :=
  (ratedEntries model rated).countP (fun q => decide (q.1 = c))

/-- The stored similarity of candidate `c` in rated item `i`'s model row
(0 when absent; rows with distinct columns store at most one entry per
candidate). -/
def simAt (model : List (List (ℕ × ℚ))) (i c : ℕ) : ℚ :=
  (((model.getD i []).filter (fun q => decide (q.1 = c))).map (fun q => q.2)).sum

/-- Brute-force weighted average, following the spec's words: the sum over
rated entities of similarity times rated value, divided by the sum of
similarities. -/
def bruteForceWeightedAverage (model : List (List (ℕ × ℚ))) (rate_v : List ℚ)
    (rated : List ℕ) (c : ℕ) : ℚ :=
  ((rated.zip rate_v).map (fun p => simAt model p.1 c * p.2)).sum
    / ((rated.zip rate_v).map (fun p => simAt model p.1 c)).sum

/-- Brute-force sum of similarities, following the spec's words. -/
def bruteForceSimSum (model : List (List (ℕ × ℚ))) (rated : List ℕ) (c : ℕ) : ℚ :=
  (rated.map (fun i => simAt model i c)).sum

/-- The `(rate, column, similarity)` triples the weighted-average loop
processes, in order. -/
def ratedTriples (model : List (List (ℕ × ℚ))) (rate_v : List ℚ)
    (rated : List ℕ) : List (ℚ × ℕ × ℚ) :=
  (rated.zip rate_v).flatMap
    (fun p => (model.getD p.1 []).map (fun q => (p.2, q.1, q.2)))

/-- The triples of `P` that concern candidate `c`. -/
def triplesFor (P : List (ℚ × ℕ × ℚ)) (c : ℕ) : List (ℚ × ℕ × ℚ) :=
  P.filter (fun t => decide (t.2.1 = c))

/-- The weighted-average accumulator state reached after processing exactly
the triples of `P` through the fast path. -/
def mkWAState (P : List (ℚ × ℕ × ℚ)) : WAState :=
  { scores := fun c => ((triplesFor P c).map (fun t => t.2.2 * t.1)).sum
    t_sims := fun c => ((triplesFor P c).map (fun t => |t.2.2|)).sum
    counts := fun c => (triplesFor P c).length
    nbr_sims := fun c => (triplesFor P c).map (fun t => t.2.2)
    nbr_vals := fun c => (triplesFor P c).map (fun t => t.2.2 * t.1)
    nbr_min := fun c => ((triplesFor P c).map (fun t => t.2.2)).foldl min finfoF32Max }

theorem triplesFor_append (P Q : List (ℚ × ℕ × ℚ)) (c : ℕ) :
    triplesFor (P ++ Q) c = triplesFor P c ++ triplesFor Q c :=
  List.filter_append _ _

theorem triplesFor_singleton_self (t : ℚ × ℕ × ℚ) :
    triplesFor [t] t.2.1 = [t] := by
  simp [triplesFor]

theorem triplesFor_singleton_other (t : ℚ × ℕ × ℚ) (c : ℕ) (h : t.2.1 ≠ c) :
    triplesFor [t] c = [] := by
  simp [triplesFor, h]

theorem waPair_fast_step (max_nbrs : ℕ) (P : List (ℚ × ℕ × ℚ)) (t : ℚ × ℕ × ℚ)
    (hfast : (triplesFor P t.2.1).length < max_nbrs) :
    waPair max_nbrs t.1 (mkWAState P) t.2 = mkWAState (P ++ [t]) := by
  have hcnt : (mkWAState P).counts t.2.1 < max_nbrs := hfast
  rw [waPair, if_pos hcnt]
  refine WAState.ext ?_ ?_ ?_ ?_ ?_ ?_ <;> funext c <;> by_cases hc : c = t.2.1 <;>
    first
    | (subst hc
       simp [upd, mkWAState, triplesFor_append, triplesFor_singleton_self,
         List.foldl_append])
    | (simp [upd, hc, mkWAState, triplesFor_append,
        triplesFor_singleton_other t c (fun h => hc h.symm)])

/-- As long as no candidate's total neighborhood exceeds `max_nbrs`, the
weighted-average loop stays on the fast path and its state is exactly the
per-candidate sums over the processed triples. -/
theorem waFold_fastpath (max_nbrs : ℕ) (L : List (ℚ × ℕ × ℚ)) :
    ∀ P : List (ℚ × ℕ × ℚ),
      (∀ t ∈ L, (triplesFor (P ++ L) t.2.1).length ≤ max_nbrs) →
      L.foldl (fun s t => waPair max_nbrs t.1 s t.2) (mkWAState P)
        = mkWAState (P ++ L) := by
  induction L with
  | nil => intro P _; simp
  | cons t L ih =>
    intro P h
    rw [List.foldl_cons]
    have hfast : (triplesFor P t.2.1).length < max_nbrs := by
      have ht := h t (List.mem_cons_self t L)
      rw [triplesFor_append] at ht
      have hcons : triplesFor (t :: L) t.2.1 = t :: triplesFor L t.2.1 := by
        simp [triplesFor]
      rw [hcons] at ht
      simp only [List.length_append, List.length_cons] at ht
      omega
    rw [waPair_fast_step max_nbrs P t hfast]
    have happ : (P ++ [t]) ++ L = P ++ t :: L := by simp
    have hih := ih (P ++ [t]) (by
      intro t' ht'
      rw [happ]
      exact h t' (List.mem_cons_of_mem t ht'))
    rw [hih, happ]

theorem waRow_eq_foldl_triples (max_nbrs : ℕ) (s : WAState) (rate : ℚ)
    (row : List (ℕ × ℚ)) :
    waRow max_nbrs s rate row
      = (row.map (fun q => (rate, q.1, q.2))).foldl
          (fun s t => waPair max_nbrs t.1 s t.2) s := by
  rw [waRow, List.foldl_map]

theorem waLoop_eq_foldl_triples (model : List (List (ℕ × ℚ))) (max_nbrs : ℕ)
    (rate_v : List ℚ) (rated : List ℕ) :
    waLoop model max_nbrs rate_v rated
      = (ratedTriples model rate_v rated).foldl
          (fun s t => waPair max_nbrs t.1 s t.2) waInit := by
  rw [ratedTriples, foldl_flatMap, waLoop]
  congr 1
  funext s p
  rw [waRow_eq_foldl_triples]

theorem waInit_eq_mkWAState : waInit = mkWAState ([] : List (ℚ × ℕ × ℚ)) := rfl

theorem waLoop_fastpath_state (model : List (List (ℕ × ℚ))) (max_nbrs : ℕ)
    (rate_v : List ℚ) (rated : List ℕ)
    (h : ∀ t ∈ ratedTriples model rate_v rated,
      (triplesFor (ratedTriples model rate_v rated) t.2.1).length ≤ max_nbrs) :
    waLoop model max_nbrs rate_v rated
      = mkWAState (ratedTriples model rate_v rated) := by
  rw [waLoop_eq_foldl_triples, waInit_eq_mkWAState]
  have hfold := waFold_fastpath max_nbrs (ratedTriples model rate_v rated) []
    (by simpa using h)
  simpa using hfold

theorem triples_row_filter (model : List (List (ℕ × ℚ))) (p : ℕ × ℚ) (c : ℕ) :
    triplesFor ((model.getD p.1 []).map (fun q => (p.2, q.1, q.2))) c
      = ((model.getD p.1 []).filter (fun q => decide (q.1 = c))).map
          (fun q => (p.2, q.1, q.2)) := by
  rw [triplesFor, List.filter_map]
  rfl

theorem triples_counts_general (model : List (List (ℕ × ℚ))) (zl : List (ℕ × ℚ))
    (c : ℕ) :
    (triplesFor (zl.flatMap
        (fun p => (model.getD p.1 []).map (fun q => (p.2, q.1, q.2)))) c).length
      = ((zl.map Prod.fst).flatMap (fun i => model.getD i [])).countP
          (fun q => decide (q.1 = c)) := by
  induction zl with
  | nil => rfl
  | cons p zl ih =>
    rw [List.flatMap_cons, triplesFor_append, List.length_append, ih,
      List.map_cons, List.flatMap_cons, List.countP_append, triples_row_filter]
    congr 1
    rw [List.length_map, List.countP_eq_length_filter]

theorem triples_num_general (model : List (List (ℕ × ℚ))) (zl : List (ℕ × ℚ))
    (c : ℕ) :
    ((triplesFor (zl.flatMap
        (fun p => (model.getD p.1 []).map (fun q => (p.2, q.1, q.2)))) c).map
        (fun t => t.2.2 * t.1)).sum
      = (zl.map (fun p => simAt model p.1 c * p.2)).sum := by
  induction zl with
  | nil => rfl
  | cons p zl ih =>
    rw [List.flatMap_cons, triplesFor_append, List.map_append, List.sum_append, ih,
      List.map_cons, List.sum_cons, triples_row_filter, List.map_map]
    congr 1
    rw [simAt, ← List.sum_map_mul_right]
    rfl

theorem triples_den_general (model : List (List (ℕ × ℚ))) (zl : List (ℕ × ℚ))
    (c : ℕ) :
    ((triplesFor (zl.flatMap
        (fun p => (model.getD p.1 []).map (fun q => (p.2, q.1, q.2)))) c).map
        (fun t => t.2.2)).sum
      = (zl.map (fun p => simAt model p.1 c)).sum := by
  induction zl with
  | nil => rfl
  | cons p zl ih =>
    rw [List.flatMap_cons, triplesFor_append, List.map_append, List.sum_append, ih,
      List.map_cons, List.sum_cons, triples_row_filter, List.map_map]
    congr 1

/-- Every similarity value in a processed triple comes from a model row. -/
theorem triples_val_nonneg (model : List (List (ℕ × ℚ))) (zl : List (ℕ × ℚ))
    (hpos : ∀ row ∈ model, ∀ q ∈ row, 0 ≤ q.2) (t : ℚ × ℕ × ℚ)
    (ht : t ∈ zl.flatMap
      (fun p => (model.getD p.1 []).map (fun q => (p.2, q.1, q.2)))) :
    0 ≤ t.2.2 := by
  obtain ⟨p, _, htp⟩ := List.mem_flatMap.1 ht
  obtain ⟨q, hq, rfl⟩ := List.mem_map.1 htp
  by_cases hlt : p.1 < model.length
  · have hrow : model.getD p.1 [] ∈ model := by
      rw [List.getD_eq_getElem _ _ hlt]
      exact List.getElem_mem hlt
    exact hpos _ hrow q hq
  · rw [List.getD_eq_default _ _ (by omega)] at hq
    exact absurd hq (List.not_mem_nil q)

/-- The pairs of `P` that concern candidate `c`. -/
def pairsFor (P : List (ℕ × ℚ)) (c : ℕ) : List (ℕ × ℚ) :=
  P.filter (fun q => decide (q.1 = c))

/-- The sum-policy accumulator state reached after processing exactly the
pairs of `P` through the fast path. -/
def mkSumState (P : List (ℕ × ℚ)) : SumState :=
  { t_sims := fun c => ((pairsFor P c).map (fun q => q.2)).sum
    counts := fun c => (pairsFor P c).length
    nbr_sims := fun c => (pairsFor P c).map (fun q => q.2)
    nbr_min := fun c => ((pairsFor P c).map (fun q => q.2)).foldl min finfoF32Max }

theorem pairsFor_append (P Q : List (ℕ × ℚ)) (c : ℕ) :
    pairsFor (P ++ Q) c = pairsFor P c ++ pairsFor Q c :=
  List.filter_append _ _

theorem pairsFor_singleton_self (q : ℕ × ℚ) :
    pairsFor [q] q.1 = [q] := by
  simp [pairsFor]

theorem pairsFor_singleton_other (q : ℕ × ℚ) (c : ℕ) (h : q.1 ≠ c) :
    pairsFor [q] c = [] := by
  simp [pairsFor, h]

theorem sumPair_fast_step (max_nbrs : ℕ) (P : List (ℕ × ℚ)) (q : ℕ × ℚ)
    (hfast : (pairsFor P q.1).length < max_nbrs) :
    sumPair max_nbrs (mkSumState P) q = mkSumState (P ++ [q]) := by
  have hcnt : (mkSumState P).counts q.1 < max_nbrs := hfast
  rw [sumPair, if_pos hcnt]
  refine SumState.ext ?_ ?_ ?_ ?_ <;> funext c <;> by_cases hc : c = q.1 <;>
    first
    | (subst hc
       simp [upd, mkSumState, pairsFor_append, pairsFor_singleton_self,
         List.foldl_append])
    | (simp [upd, hc, mkSumState, pairsFor_append,
        pairsFor_singleton_other q c (fun h => hc h.symm)])

theorem sumFold_fastpath (max_nbrs : ℕ) (L : List (ℕ × ℚ)) :
    ∀ P : List (ℕ × ℚ),
      (∀ q ∈ L, (pairsFor (P ++ L) q.1).length ≤ max_nbrs) →
      L.foldl (sumPair max_nbrs) (mkSumState P) = mkSumState (P ++ L) := by
  induction L with
  | nil => intro P _; simp
  | cons q L ih =>
    intro P h
    rw [List.foldl_cons]
    have hfast : (pairsFor P q.1).length < max_nbrs := by
      have hq := h q (List.mem_cons_self q L)
      rw [pairsFor_append] at hq
      have hcons : pairsFor (q :: L) q.1 = q :: pairsFor L q.1 := by
        simp [pairsFor]
      rw [hcons] at hq
      simp only [List.length_append, List.length_cons] at hq
      omega
    rw [sumPair_fast_step max_nbrs P q hfast]
    have happ : (P ++ [q]) ++ L = P ++ q :: L := by simp
    have hih := ih (P ++ [q]) (by
      intro q' hq'
      rw [happ]
      exact h q' (List.mem_cons_of_mem q hq'))
    rw [hih, happ]

theorem sumInit_eq_mkSumState : sumInit = mkSumState ([] : List (ℕ × ℚ)) := rfl

theorem sumLoop_eq_foldl_pairs (model : List (List (ℕ × ℚ))) (max_nbrs : ℕ)
    (rated : List ℕ) :
    sumLoop model max_nbrs rated
      = (ratedEntries model rated).foldl (sumPair max_nbrs) sumInit := by
  rw [ratedEntries, foldl_flatMap, sumLoop]

theorem sumLoop_fastpath_state (model : List (List (ℕ × ℚ))) (max_nbrs : ℕ)
    (rated : List ℕ)
    (h : ∀ q ∈ ratedEntries model rated,
      (pairsFor (ratedEntries model rated) q.1).length ≤ max_nbrs) :
    sumLoop model max_nbrs rated = mkSumState (ratedEntries model rated) := by
  rw [sumLoop_eq_foldl_pairs, sumInit_eq_mkSumState]
  have hfold := sumFold_fastpath max_nbrs (ratedEntries model rated) []
    (by simpa using h)
  simpa using hfold

theorem pairsFor_length_eq_nbrCount (model : List (List (ℕ × ℚ)))
    (rated : List ℕ) (c : ℕ) :
    (pairsFor (ratedEntries model rated) c).length = nbrCount model rated c :=
  (List.countP_eq_length_filter _ _).symm

theorem pairsFor_sum_eq_brute (model : List (List (ℕ × ℚ))) (rated : List ℕ)
    (c : ℕ) :
    ((pairsFor (ratedEntries model rated) c).map (fun q => q.2)).sum
      = bruteForceSimSum model rated c := by
  rw [bruteForceSimSum]
  induction rated with
  | nil => rfl
  | cons i rated ih =>
    rw [ratedEntries, List.flatMap_cons, ← ratedEntries, pairsFor_append,
      List.map_append, List.sum_append, ih, List.map_cons, List.sum_cons]
    rfl

theorem nbrCount_le_of_bounded (model : List (List (ℕ × ℚ))) (rated : List ℕ)
    (max_nbrs : ℕ)
    (hocc : ∀ q ∈ ratedEntries model rated, nbrCount model rated q.1 ≤ max_nbrs) :
    ∀ c, nbrCount model rated c ≤ max_nbrs := by
  intro c
  rcases Nat.eq_zero_or_pos (nbrCount model rated c) with h | h
  · omega
  · rw [nbrCount] at h
    obtain ⟨q, hq, hqc⟩ := List.countP_pos_iff.1 h
    have hqc' : q.1 = c := of_decide_eq_true hqc
    rw [← hqc']
    exact hocc q hq

theorem triplesFor_length_eq_nbrCount (model : List (List (ℕ × ℚ)))
    (rate_v : List ℚ) (rated : List ℕ) (hlen : rated.length ≤ rate_v.length)
    (c : ℕ) :
    (triplesFor (ratedTriples model rate_v rated) c).length
      = nbrCount model rated c := by
  rw [ratedTriples, triples_counts_general, List.map_fst_zip rated rate_v hlen]
  rfl

/-- C6.  Whenever every candidate's neighborhood size stays within
`max_nbrs` (so only the fast path runs and no truncation occurs) and all
stored similarities are nonnegative (as the positive `min_sim` threshold of a
trained similarity graph guarantees), the aggregators' scores exactly equal a
brute-force computation over the same data: for the weighted-average policy
the sum over rated entities of similarity times rated value divided by the
sum of similarities, and for the sum policy the plain sum of similarities;
candidates with fewer than `min_nbrs` neighbors score NaN in both. -/
theorem aggregator_fastpath_equiv (model : List (List (ℕ × ℚ)))
    (min_nbrs max_nbrs : ℕ) (rate_v : List ℚ) (rated : List ℕ)
    (hlen : rated.length = rate_v.length)
    (hocc : ∀ q ∈ ratedEntries model rated, nbrCount model rated q.1 ≤ max_nbrs)
    (hpos : ∀ row ∈ model, ∀ q ∈ row, 0 ≤ q.2) :
    ∀ c, predictWeightedAverage model min_nbrs max_nbrs rate_v rated c
        = (if min_nbrs ≤ nbrCount model rated c
            then some (bruteForceWeightedAverage model rate_v rated c) else none)
      ∧ predictSum model min_nbrs max_nbrs rate_v rated c
        = (if min_nbrs ≤ nbrCount model rated c
            then some (bruteForceSimSum model rated c) else none) := by
  intro c
  have hall : ∀ c', nbrCount model rated c' ≤ max_nbrs :=
    nbrCount_le_of_bounded model rated max_nbrs hocc
  have htl : ∀ c', (triplesFor (ratedTriples model rate_v rated) c').length
      = nbrCount model rated c' :=
    fun c' => triplesFor_length_eq_nbrCount model rate_v rated (le_of_eq hlen) c'
  constructor
  · have hstate := waLoop_fastpath_state model max_nbrs rate_v rated (by
      intro t _
      rw [htl t.2.1]
      exact hall t.2.1)
    simp only [predictWeightedAverage, hstate]
    have hnum : (mkWAState (ratedTriples model rate_v rated)).scores c
        = ((rated.zip rate_v).map (fun p => simAt model p.1 c * p.2)).sum := by
      simp only [mkWAState]
      exact triples_num_general model (rated.zip rate_v) c
    have habs : (mkWAState (ratedTriples model rate_v rated)).t_sims c
        = ((rated.zip rate_v).map (fun p => simAt model p.1 c)).sum := by
      simp only [mkWAState]
      have hcong : ∀ t ∈ triplesFor (ratedTriples model rate_v rated) c,
          (fun t : ℚ × ℕ × ℚ => |t.2.2|) t = (fun t : ℚ × ℕ × ℚ => t.2.2) t := by
        intro t ht
        exact abs_of_nonneg (triples_val_nonneg model (rated.zip rate_v) hpos t
          (List.mem_filter.1 ht).1)
      rw [List.map_congr_left hcong]
      exact triples_den_general model (rated.zip rate_v) c
    have hcnt : (mkWAState (ratedTriples model rate_v rated)).counts c
        = nbrCount model rated c := htl c
    rw [hcnt, hnum, habs, bruteForceWeightedAverage]
  · have hstate := sumLoop_fastpath_state model max_nbrs rated (by
      intro q _
      rw [pairsFor_length_eq_nbrCount]
      exact hall q.1)
    simp only [predictSum, hstate]
    have hcnt : (mkSumState (ratedEntries model rated)).counts c
        = nbrCount model rated c := pairsFor_length_eq_nbrCount model rated c
    have hsum : (mkSumState (ratedEntries model rated)).t_sims c
        = bruteForceSimSum model rated c := pairsFor_sum_eq_brute model rated c
    rw [hcnt, hsum]

/-- Witness for C6's theorem at a concrete input. -/
theorem aggregator_fastpath_equiv_witness :
    ([0, 1] : List ℕ).length = ([2, 3] : List ℚ).length ∧
      (∀ q ∈ ratedEntries [[(1, 1), (2, 1)], [(1, 1)]] [0, 1],
        nbrCount [[(1, 1), (2, 1)], [(1, 1)]] [0, 1] q.1 ≤ 2) ∧
      (∀ row ∈ [[(1, (1 : ℚ)), (2, 1)], [(1, 1)]], ∀ q ∈ row, 0 ≤ q.2) ∧
      (predictWeightedAverage [[(1, 1), (2, 1)], [(1, 1)]] 1 2 [2, 3] [0, 1] 1
          = (if 1 ≤ nbrCount [[(1, 1), (2, 1)], [(1, 1)]] [0, 1] 1
              then some (bruteForceWeightedAverage [[(1, 1), (2, 1)], [(1, 1)]]
                [2, 3] [0, 1] 1)
              else none) ∧
        predictSum [[(1, 1), (2, 1)], [(1, 1)]] 1 2 [2, 3] [0, 1] 1
          = (if 1 ≤ nbrCount [[(1, 1), (2, 1)], [(1, 1)]] [0, 1] 1
              then some (bruteForceSimSum [[(1, 1), (2, 1)], [(1, 1)]] [0, 1] 1)
              else none)) :=
  ⟨by decide, by decide, by decide,
    aggregator_fastpath_equiv [[(1, 1), (2, 1)], [(1, 1)]] 1 2 [2, 3] [0, 1]
      (by decide) (by decide) (by decide) 1⟩

/-- The trained state of `ItemKNNScorer` that `__call__` reads: the item
vocabulary (`items_`, position = item number), the optional per-item means
(`item_means_`, present exactly when explicit-feedback training centered the
ratings), and the similarity matrix `sim_matrix_` in compressed sparse rows
(per row, the stored `(column, value)` entries). -/
structure IKModel where
  items_ : List ℕ
  item_means_ : Option (List ℚ)
  sim_matrix_ : List (List (ℕ × ℚ))

/-- One id's entry of `ItemList.numbers(vocabulary=..., missing="negative")`:
the position of the id in the vocabulary, `none` when absent. -/
def vocabNumber (vocab : List ℕ) (i : ℕ) : Option ℕ :=
  vocab.findIdx? (fun x => decide (x = i))

/-- The rated-item numbers paired with their rating values, unknown items
dropped (`ri_valid_nums` / `ri_vals` in `__call__`): explicit feedback reads
the rating field, implicit feedback uses 1.0 for every rated item. -/
def itemKnnRiPairs (vocab : List ℕ) (explicit : Bool) (ids : List ℕ)
    (urv : Option (List ℚ)) : List (ℕ × ℚ) :=
  let vals0 : List ℚ := if explicit then urv.getD [] else ids.map (fun _ => 1)
  (ids.zip vals0).filterMap
    (fun p => (vocabNumber vocab p.1).map (fun n => (n, p.2)))

/-- The stored entry of the rated-row/target-column sub-matrix
(`model[ri_valid_nums, :][:, ti_valid_nums]`) at rated position `r` and
target column `t`. -/
def entryAt (rows : List (List (ℕ × ℚ))) (r t : ℕ) : Option ℚ :=
  ((rows.getD r []).find? (fun q => decide (q.1 = t))).map (fun q => q.2)

/-- The scoring phase of `ItemKNNScorer.__call__` after the rated items have
been resolved: center the rating values when means were trained, select the
rated rows of the similarity matrix, and score each in-vocabulary target item
through the fast path (neighborhood fits in `nnbrs`) or the slow path
(top-`nnbrs` entries of the densified column).  With explicit feedback each
path scores the dot product of ratings with the similarities over the sum of
the similarities; with implicit feedback each path scores the plain sum of
the similarities, with no division.  NaN (`none`) is left for unknown targets
and neighborhoods below `min_nbrs`; finally the target item's mean is
re-added when means were trained. -/
def itemKnnScore (m : IKModel) (explicit : Bool) (nnbrs min_nbrs : ℕ)
    (riPairs : List (ℕ × ℚ)) (target : List ℕ) : List (Option ℚ) :=
  let centered : List (ℕ × ℚ) :=
    match m.item_means_ with
    | some ms => riPairs.map (fun p => (p.1, p.2 - ms.getD p.1 0))
    | none => riPairs
  let rvals : List ℚ := centered.map (fun p => p.2)
  let rows : List (List (ℕ × ℚ)) := centered.map (fun p => m.sim_matrix_.getD p.1 [])
  let colEntries : ℕ → List (ℕ × ℚ) := fun t =>
    (List.range rows.length).filterMap
      (fun r => (entryAt rows r t).map (fun v => (r, v)))
  let score : ℕ → Option ℚ := fun t =>
    let col := colEntries t
    if min_nbrs ≤ col.length ∧ col.length ≤ nnbrs then
      if explicit then
        some ((col.map (fun p => rvals.getD p.1 0 * p.2)).sum
          / (col.map (fun p => p.2)).sum)
      else
        some ((col.map (fun p => p.2)).sum)
    else if nnbrs < col.length then
      let dense := (List.range rows.length).map (fun r => (entryAt rows r t).getD 0)
      let sel := (dense.enum.mergeSort (fun a b => decide (b.2 ≤ a.2))).take nnbrs
      if explicit then
        some ((sel.map (fun p => p.2 * rvals.getD p.1 0)).sum
          / (sel.map (fun p => p.2)).sum)
      else
        some ((sel.map (fun p => p.2)).sum)
    else none
  let withMean : ℕ → Option ℚ → Option ℚ := fun t s =>
    match m.item_means_ with
    | some ms => s.map (fun q => q + ms.getD t 0)
    | none => s
  target.map (fun i =>
    match vocabNumber m.items_ i with
    | none => none
    | some t => withMean t (score t))

/-- `ItemKNNScorer.__call__(query, items)` (`lenskit/knn/item.py`): an absent
or empty rated-item history returns NaN for every target; an explicit-feedback
scorer with a non-empty history but no rating field raises `RuntimeError`;
otherwise the rated items are resolved against the vocabulary and scored. -/
def itemKnnCall (m : IKModel) (explicit : Bool) (nnbrs min_nbrs : ℕ)
    (query : Option (List ℕ × Option (List ℚ))) (target : List ℕ) :
    Except String (List (Option ℚ)) :=
  match query with
  | none => .ok (target.map (fun _ => none))
  | some (ids, urv) =>
    if ids.length = 0 then .ok (target.map (fun _ => none))
    else
      match explicit, urv with
      | true, none => .error "explicit-feedback scorer must have ratings"
      | _, _ =>
        .ok (itemKnnScore m explicit nnbrs min_nbrs
          (itemKnnRiPairs m.items_ explicit ids urv) target)

/-- A query with its unknown rated entities dropped (the rating field kept
aligned with the surviving ids). -/
def knownQuery (vocab : List ℕ) (q : List ℕ × Option (List ℚ)) :
    List ℕ × Option (List ℚ) :=
  match q.2 with
  | none => (q.1.filter (fun i => (vocabNumber vocab i).isSome), none)
  | some rv =>
    let kept := (q.1.zip rv).filter (fun p => (vocabNumber vocab p.1).isSome)
    (kept.map Prod.fst, some (kept.map Prod.snd))

/-- C10.  For an `ItemKNNScorer` configured with explicit feedback, every
scoring call whose query history is non-empty but carries no rating values
raises `RuntimeError` instead of degrading to NaN scores — for *every* model,
so in particular even when none of the history's items are in the trained
vocabulary; an absent history or an empty history yields the all-NaN
result. -/
theorem itemKnnCall_missing_ratings (m : IKModel) (nnbrs min_nbrs : ℕ)
    (target : List ℕ) (ids : List ℕ) (hne : ids ≠ []) :
    itemKnnCall m true nnbrs min_nbrs (some (ids, none)) target
        = .error "explicit-feedback scorer must have ratings"
      ∧ (∀ e : Bool, ∀ urv : Option (List ℚ),
        itemKnnCall m e nnbrs min_nbrs none target
            = .ok (target.map (fun _ => none))
          ∧ itemKnnCall m e nnbrs min_nbrs (some ([], urv)) target
            = .ok (target.map (fun _ => none))) := by
  refine ⟨?_, ?_⟩
  · have hlen : ¬ ids.length = 0 := by
      cases ids with
      | nil => exact absurd rfl hne
      | cons a l => simp
    simp [itemKnnCall, hlen]
  · intro e urv
    exact ⟨rfl, rfl⟩

/-- Witness for C10's theorem at a concrete input. -/
theorem itemKnnCall_missing_ratings_witness :
    ([5] : List ℕ) ≠ [] ∧
      (itemKnnCall ⟨[], none, []⟩ true 20 1 (some ([5], none)) [7]
          = .error "explicit-feedback scorer must have ratings"
        ∧ (∀ e : Bool, ∀ urv : Option (List ℚ),
          itemKnnCall ⟨[], none, []⟩ e 20 1 none [7]
              = .ok ([7].map (fun _ => none))
            ∧ itemKnnCall ⟨[], none, []⟩ e 20 1 (some ([], urv)) [7]
              = .ok ([7].map (fun _ => none)))) :=
  ⟨by decide, itemKnnCall_missing_ratings ⟨[], none, []⟩ 20 1 [7] [5] (by decide)⟩

theorem vocabNumber_eq_none (vocab : List ℕ) (x : ℕ) (hx : x ∉ vocab) :
    vocabNumber vocab x = none := by
  rw [vocabNumber, List.findIdx?_eq_none_iff]
  intro y hy
  exact decide_eq_false (fun he => hx (he ▸ hy))

theorem zip_map_fst_snd {α β : Type} (l : List (α × β)) :
    (l.map Prod.fst).zip (l.map Prod.snd) = l := by
  have h := List.zip_unzip l
  rwa [List.unzip_eq_map] at h

theorem zip_map_const_one (l : List ℕ) :
    l.zip (l.map (fun _ => (1 : ℚ))) = l.map (fun i => (i, (1 : ℚ))) := by
  induction l with
  | nil => rfl
  | cons a l ih => simp only [List.map_cons, List.zip_cons_cons, ih]

theorem filterMap_filter_isSome {α β γ : Type} (l : List α) (h : α → Option β)
    (g : α → β → γ) :
    (l.filter (fun a => (h a).isSome)).filterMap (fun a => (h a).map (g a))
      = l.filterMap (fun a => (h a).map (g a)) := by
  induction l with
  | nil => rfl
  | cons a l ih =>
    rw [List.filter_cons]
    cases hh : h a with
    | none => simp [hh, ih]
    | some b => simp [hh, ih]

theorem map_fst_filter_zip (P : ℕ → Bool) (ids : List ℕ) (rv : List ℚ)
    (hlen : ids.length ≤ rv.length) :
    ((ids.zip rv).filter (fun p => P p.1)).map Prod.fst = ids.filter P := by
  induction ids generalizing rv with
  | nil => rfl
  | cons a ids ih =>
    cases rv with
    | nil => simp at hlen
    | cons b rv =>
      rw [List.zip_cons_cons, List.filter_cons, List.filter_cons]
      by_cases hp : P a = true <;>
        simp [hp, ih rv (by simpa using hlen)]

theorem itemKnnRiPairs_implicit (vocab : List ℕ) (ids : List ℕ)
    (urv : Option (List ℚ)) :
    itemKnnRiPairs vocab false ids urv
      = ids.filterMap (fun i => (vocabNumber vocab i).map (fun n => (n, (1 : ℚ)))) := by
  rw [itemKnnRiPairs]
  simp only [Bool.false_eq_true, if_false]
  rw [zip_map_const_one, List.filterMap_map]
  rfl

/-- Dropping the unknown rated entities from a query leaves the resolved
rated-item pairs unchanged. -/
theorem itemKnnRiPairs_knownQuery (vocab : List ℕ) (explicit : Bool)
    (ids : List ℕ) (urv : Option (List ℚ))
    (hlen : ∀ rv, urv = some rv → rv.length = ids.length)
    (hok : explicit = true → urv ≠ none) :
    itemKnnRiPairs vocab explicit (knownQuery vocab (ids, urv)).1
        (knownQuery vocab (ids, urv)).2
      = itemKnnRiPairs vocab explicit ids urv := by
  cases urv with
  | none =>
    cases explicit with
    | true => exact absurd rfl (hok rfl)
    | false =>
      rw [knownQuery]
      simp only
      rw [itemKnnRiPairs_implicit, itemKnnRiPairs_implicit]
      exact filterMap_filter_isSome ids (vocabNumber vocab) (fun _ n => (n, 1))
  | some rv =>
    have hlen' : ids.length ≤ rv.length := le_of_eq (hlen rv rfl).symm
    cases explicit with
    | true =>
      rw [knownQuery]
      simp only
      rw [itemKnnRiPairs, itemKnnRiPairs]
      simp only [if_true, Option.getD_some]
      rw [zip_map_fst_snd]
      exact filterMap_filter_isSome (ids.zip rv) (fun p => vocabNumber vocab p.1)
        (fun p n => (n, p.2))
    | false =>
      rw [knownQuery]
      simp only
      rw [itemKnnRiPairs_implicit, itemKnnRiPairs_implicit]
      rw [map_fst_filter_zip (fun i => (vocabNumber vocab i).isSome) ids rv hlen']
      exact filterMap_filter_isSome ids (vocabNumber vocab) (fun _ n => (n, 1))

theorem itemKnnScore_nil (m : IKModel) (e : Bool) (nnbrs min_nbrs : ℕ)
    (target : List ℕ) (hmn : 1 ≤ min_nbrs) :
    itemKnnScore m e nnbrs min_nbrs [] target = target.map (fun _ => none) := by
  have hns : ¬ (min_nbrs ≤ 0) := by omega
  unfold itemKnnScore
  apply List.map_congr_left
  intro i _
  cases hv : vocabNumber m.items_ i with
  | none => cases m.item_means_ <;> simp [hv]
  | some t => cases m.item_means_ <;> simp [hv, hns]

theorem itemKnnScore_length (m : IKModel) (e : Bool) (nnbrs min_nbrs : ℕ)
    (riPairs : List (ℕ × ℚ)) (target : List ℕ) :
    (itemKnnScore m e nnbrs min_nbrs riPairs target).length = target.length := by
  unfold itemKnnScore
  exact List.length_map _ _

theorem itemKnnScore_unknown_target (m : IKModel) (e : Bool) (nnbrs min_nbrs : ℕ)
    (riPairs : List (ℕ × ℚ)) (target : List ℕ) (j : ℕ) (x : ℕ)
    (hj : target[j]? = some x) (hx : x ∉ m.items_) :
    (itemKnnScore m e nnbrs min_nbrs riPairs target)[j]? = some none := by
  unfold itemKnnScore
  rw [List.getElem?_map, hj]
  simp [vocabNumber_eq_none m.items_ x hx]

theorem itemKnnRiPairs_nil (vocab : List ℕ) (e : Bool) (urv : Option (List ℚ)) :
    itemKnnRiPairs vocab e [] urv = [] := by
  cases e <;> rfl

/-- The trained state of `UserKNNScorer` that `__call__` reads: the user and
item vocabularies, the optional per-user means, the normalized rating matrix
(`user_vectors_`, CSR rows per user over item columns) and the centered
un-normalized rating matrix (`user_ratings_`). -/
structure UUModel where
  users_ : List ℕ
  items_ : List ℕ
  user_means_ : Option (List ℚ)
  user_vectors_ : List (List (ℕ × ℚ))
  user_ratings_ : List (List (ℕ × ℚ))

/-- Dot product of one stored sparse row with a dense vector (one row of
`safe_spmv(self.user_vectors_, ratings)`). -/
def sparseDot (row : List (ℕ × ℚ)) (vec : List ℚ) : ℚ :=
  (row.map (fun q => q.2 * vec.getD q.1 0)).sum

/-- The scatter `ratings[ui_nos[ui_mask]] = ...` of
`UserKNNScorer._get_user_data`: a dense vector over the item vocabulary, zero
everywhere except at the positions of the known rated items, which receive
`f` of their value. -/
def scatterRatings (n : ℕ) (vocab : List ℕ) (ids : List ℕ) (vals : List ℚ)
    (f : ℚ → ℚ) : List ℚ :=
  (ids.zip vals).foldl
    (fun acc p =>
      match vocabNumber vocab p.1 with
      | some k => acc.set k (f p.2)
      | none => acc)
    (List.replicate n 0)

/-- The provided-history branch of `UserKNNScorer._get_user_data`
(`lenskit/knn/user.py`): explicit feedback without a rating field yields
`None` (the caller then returns all-NaN); explicit feedback computes the
query mean over the *full* history (`urv.mean()`, unknown items included) and
scatters the centered ratings of the known items; implicit feedback scatters
1.0 with mean 0.  Returns the query user's index in the trained vocabulary
(when present), the dense rating vector, and the mean. -/
def userKnnGetUserData (m : UUModel) (explicit : Bool) (user_id : ℕ)
    (ids : List ℕ) (urv : Option (List ℚ)) : Option (Option ℕ × List ℚ × ℚ) :=
  let index := vocabNumber m.users_ user_id
  match explicit, urv with
  | true, none => none
  | true, some rv =>
    let umean := rv.sum / (rv.length : ℚ)
    some (index,
      scatterRatings m.items_.length m.items_ ids rv (fun v => v - umean), umean)
  | false, _ =>
    some (index,
      scatterRatings m.items_.length m.items_ ids (ids.map (fun _ => 1))
        (fun v => v), 0)

/-- `score_items_with_neighbors` (`lenskit/knn/user.py`) for one target item
column `t`: collect the stored `(neighbor position, rating)` entries of the
selected neighbor-row/target-column sub-matrix; on the fast path
(count ≤ `max_nbrs`) score the dot product with the neighbor similarities,
divided by their sum when averaging, NaN below `min_nbrs`; on the slow path
keep the `max_nbrs` stored entries with the largest neighbor similarities. -/
def scoreItemWithNeighbors (kn : List (ℕ × ℚ)) (ratings : List (List (ℕ × ℚ)))
    (max_nbrs min_nbrs : ℕ) (average : Bool) (t : ℕ) : Option ℚ :=
  let col : List (ℕ × ℚ) := (List.range kn.length).filterMap (fun r =>
    (((ratings.getD (kn.getD r (0, 0)).1 []).find? (fun q => decide (q.1 = t))).map
      (fun q => (r, q.2))))
  if col.length ≤ max_nbrs then
    if min_nbrs ≤ col.length then
      let num := (col.map (fun p => p.2 * (kn.getD p.1 (0, 0)).2)).sum
      if average then some (num / (col.map (fun p => (kn.getD p.1 (0, 0)).2)).sum)
      else some num
    else none
  else
    let sel := (col.mergeSort (fun a b =>
      decide ((kn.getD b.1 (0, 0)).2 ≤ (kn.getD a.1 (0, 0)).2))).take max_nbrs
    let s := (sel.map (fun p => (kn.getD p.1 (0, 0)).2)).sum
    if average then some ((sel.map (fun p => (kn.getD p.1 (0, 0)).2 * p.2)).sum / s)
    else some s

/-- `UserKNNScorer.__call__(query, items)` (`lenskit/knn/user.py`) on a query
that provides its own item history: resolve the user data, dot the normalized
user vectors with the dense rating vector, zero the self-similarity when the
query user is known, keep neighbors with similarity ≥ `min_sim` (all-NaN when
none survive), score each in-vocabulary target item with
`score_items_with_neighbors`, add the query mean back onto every score
(`scores += umean`), and align the result with the caller's item list (NaN
for unknown items). -/
def userKnnCall (m : UUModel) (explicit : Bool) (nnbrs min_nbrs : ℕ)
    (min_sim : ℚ) (user_id : ℕ) (ids : List ℕ) (urv : Option (List ℚ))
    (target : List ℕ) : List (Option ℚ) :=
  match userKnnGetUserData m explicit user_id ids urv with
  | none => target.map (fun _ => none)
  | some (uidx, ratings, umean) =>
    let sims0 := m.user_vectors_.map (fun row => sparseDot row ratings)
    let nbr_sims :=
      match uidx with
      | some u => sims0.set u 0
      | none => sims0
    let kn := nbr_sims.enum.filter (fun p => decide (min_sim ≤ p.2))
    if kn.length = 0 then target.map (fun _ => none)
    else
      target.map (fun i =>
        match vocabNumber m.items_ i with
        | none => none
        | some t =>
          (scoreItemWithNeighbors kn m.user_ratings_ nnbrs min_nbrs explicit t).map
            (fun q => q + umean))

theorem userKnnCall_length (m : UUModel) (e : Bool) (nn mn : ℕ) (ms : ℚ)
    (uid : ℕ) (ids : List ℕ) (urv : Option (List ℚ)) (target : List ℕ) :
    (userKnnCall m e nn mn ms uid ids urv target).length = target.length := by
  unfold userKnnCall
  cases userKnnGetUserData m e uid ids urv with
  | none => exact List.length_map _ _
  | some d =>
    obtain ⟨uidx, ratings, umean⟩ := d
    simp only
    split
    · exact List.length_map _ _
    · exact List.length_map _ _

theorem userKnnCall_unknown_target (m : UUModel) (e : Bool) (nn mn : ℕ)
    (ms : ℚ) (uid : ℕ) (ids : List ℕ) (urv : Option (List ℚ))
    (target : List ℕ) (j : ℕ) (x : ℕ) (hj : target[j]? = some x)
    (hx : x ∉ m.items_) :
    (userKnnCall m e nn mn ms uid ids urv target)[j]? = some none := by
  unfold userKnnCall
  cases userKnnGetUserData m e uid ids urv with
  | none =>
    rw [List.getElem?_map, hj]
    rfl
  | some d =>
    obtain ⟨uidx, ratings, umean⟩ := d
    simp only
    split
    · rw [List.getElem?_map, hj]
      rfl
    · rw [List.getElem?_map, hj]
      simp [vocabNumber_eq_none m.items_ x hx]

/-- C8 (amended).  Every scoring call returns a score array aligned
one-to-one with the caller's candidate list, in which each candidate absent
from the trained vocabulary receives the not-a-number sentinel (`none`), and
no missing-entity condition causes the call to fail — proved for
`ItemKNNScorer.__call__` and for `UserKNNScorer.__call__` on a query-provided
history.  Unknown rated entities in the query are silently excluded from the
computation by `ItemKNNScorer.__call__` (dropping them from the query leaves
the call's result unchanged); `UserKNNScorer.__call__` masks them out of the
rating vector but does *not* exclude them from the computation: the query
mean `urv.mean()` is taken over the full history, so dropping an unknown
rated item can change the scores (see the counterexample).  The hypotheses
record the item scorer's own guarantees: explicit feedback comes with a
rating field aligned with the history (its absence is the `RuntimeError` of
C10, not a missing-entity condition), and the constructor floors `min_nbrs`
at 1. -/
theorem itemKnnCall_missing_entity_outcomes (m : IKModel) (explicit : Bool)
    (nnbrs min_nbrs : ℕ) (query : Option (List ℕ × Option (List ℚ)))
    (target : List ℕ)
    (hq : ∀ ids, query = some (ids, none) → explicit = false ∨ ids = [])
    (hmn : 1 ≤ min_nbrs)
    (hlen : ∀ ids rv, query = some (ids, some rv) → rv.length = ids.length) :
    (∃ out : List (Option ℚ), itemKnnCall m explicit nnbrs min_nbrs query target = .ok out
      ∧ out.length = target.length
      ∧ ∀ (j : ℕ) (x : ℕ), target[j]? = some x → x ∉ m.items_ → out[j]? = some none)
    ∧ (∀ ids urv, query = some (ids, urv) →
        itemKnnCall m explicit nnbrs min_nbrs query target
          = itemKnnCall m explicit nnbrs min_nbrs
              (some (knownQuery m.items_ (ids, urv))) target)
    ∧ (∀ (um : UUModel) (e : Bool) (nn mn : ℕ) (ms : ℚ) (uid : ℕ)
        (qids : List ℕ) (qrv : Option (List ℚ)),
        (userKnnCall um e nn mn ms uid qids qrv target).length = target.length
        ∧ ∀ (j : ℕ) (x : ℕ), target[j]? = some x → x ∉ um.items_ →
            (userKnnCall um e nn mn ms uid qids qrv target)[j]? = some none) := by
  have hnone_out : (target.map (fun _ => (none : Option ℚ))).length = target.length
      ∧ ∀ (j : ℕ) (x : ℕ), target[j]? = some x → x ∉ m.items_ →
        (target.map (fun _ => (none : Option ℚ)))[j]? = some none := by
    refine ⟨List.length_map _ _, ?_⟩
    intro j x hj _
    rw [List.getElem?_map, hj]
    rfl
  have hscore_out : ∀ (e : Bool) (rp : List (ℕ × ℚ)),
      (itemKnnScore m e nnbrs min_nbrs rp target).length = target.length
      ∧ ∀ (j : ℕ) (x : ℕ), target[j]? = some x → x ∉ m.items_ →
        (itemKnnScore m e nnbrs min_nbrs rp target)[j]? = some none :=
    fun e rp => ⟨itemKnnScore_length m e nnbrs min_nbrs rp target,
      fun j x hj hx => itemKnnScore_unknown_target m e nnbrs min_nbrs rp target j x hj hx⟩
  refine ⟨?_, ?_, fun um e nn mn ms uid qids qrv =>
    ⟨userKnnCall_length um e nn mn ms uid qids qrv target,
      fun j x hj hx =>
        userKnnCall_unknown_target um e nn mn ms uid qids qrv target j x hj hx⟩⟩
  · cases query with
    | none => exact ⟨_, rfl, hnone_out⟩
    | some q =>
      obtain ⟨ids, urv⟩ := q
      by_cases h0 : ids.length = 0
      · refine ⟨target.map (fun _ => none), ?_, hnone_out⟩
        simp only [itemKnnCall]
        rw [if_pos h0]
      · cases explicit with
        | true =>
          cases urv with
          | none =>
            rcases hq ids rfl with h | h
            · exact absurd h (by simp)
            · exact absurd (by rw [h]; rfl) h0
          | some rv =>
            refine ⟨itemKnnScore m true nnbrs min_nbrs
              (itemKnnRiPairs m.items_ true ids (some rv)) target, ?_, hscore_out _ _⟩
            simp only [itemKnnCall]
            rw [if_neg h0]
        | false =>
          cases urv with
          | none =>
            refine ⟨itemKnnScore m false nnbrs min_nbrs
              (itemKnnRiPairs m.items_ false ids none) target, ?_, hscore_out _ _⟩
            simp only [itemKnnCall]
            rw [if_neg h0]
          | some rv =>
            refine ⟨itemKnnScore m false nnbrs min_nbrs
              (itemKnnRiPairs m.items_ false ids (some rv)) target, ?_, hscore_out _ _⟩
            simp only [itemKnnCall]
            rw [if_neg h0]
  · rintro ids urv rfl
    by_cases h0 : ids.length = 0
    · have hids : ids = [] := List.length_eq_zero.1 h0
      subst hids
      cases urv with
      | none => rfl
      | some rv => rfl
    · have hrp := itemKnnRiPairs_knownQuery m.items_ explicit ids urv
        (fun rv hrv => hlen ids rv (by rw [hrv]))
        (by
          intro he hurv
          rcases hq ids (by rw [hurv]) with h | h
          · rw [he] at h; exact Bool.noConfusion h
          · exact h0 (by rw [h]; rfl))
      cases urv with
      | none =>
        have hexp : explicit = false := by
          rcases hq ids rfl with h | h
          · exact h
          · exact absurd (by rw [h]; rfl) h0
        subst hexp
        simp only [knownQuery] at hrp ⊢
        by_cases h0' : (ids.filter (fun i => (vocabNumber m.items_ i).isSome)).length = 0
        · have hids' : ids.filter (fun i => (vocabNumber m.items_ i).isSome) = [] :=
            List.length_eq_zero.1 h0'
          have hrpnil : itemKnnRiPairs m.items_ false ids none = [] := by
            rw [← hrp, hids', itemKnnRiPairs_nil]
          simp only [itemKnnCall]
          rw [if_neg h0, if_pos (by rw [hids']; rfl), hrpnil,
            itemKnnScore_nil m false nnbrs min_nbrs target hmn]
        · simp only [itemKnnCall]
          rw [if_neg h0, if_neg h0', hrp]
      | some rv =>
        simp only [knownQuery] at hrp ⊢
        set kept := (ids.zip rv).filter (fun p => (vocabNumber m.items_ p.1).isSome)
          with hkept
        by_cases h0' : (kept.map Prod.fst).length = 0
        · have hids' : kept.map Prod.fst = [] := List.length_eq_zero.1 h0'
          have hkeptnil : kept = [] := by
            cases hk : kept with
            | nil => rfl
            | cons a l => rw [hk] at hids'; exact List.noConfusion hids'
          have hrpnil : itemKnnRiPairs m.items_ explicit ids (some rv) = [] := by
            rw [← hrp, hkeptnil]
            cases explicit <;> rfl
          cases explicit with
          | true =>
            simp only [itemKnnCall]
            rw [if_neg h0, if_pos (by rw [hids']; rfl), hrpnil,
              itemKnnScore_nil m true nnbrs min_nbrs target hmn]
          | false =>
            simp only [itemKnnCall]
            rw [if_neg h0, if_pos (by rw [hids']; rfl), hrpnil,
              itemKnnScore_nil m false nnbrs min_nbrs target hmn]
        · cases explicit with
          | true =>
            simp only [itemKnnCall]
            rw [if_neg h0, if_neg h0', hrp]
          | false =>
            simp only [itemKnnCall]
            rw [if_neg h0, if_neg h0', hrp]

/-- Witness for C8's theorem at a concrete input. -/
theorem itemKnnCall_missing_entity_outcomes_witness :
    (∃ out : List (Option ℚ),
      itemKnnCall ⟨[3, 4], none, [[(1, 1)], [(0, 1)]]⟩ false 20 1
          (some ([3, 9], some [1, 1])) [4, 7] = .ok out
        ∧ out.length = ([4, 7] : List ℕ).length
        ∧ ∀ (j : ℕ) (x : ℕ), (([4, 7] : List ℕ))[j]? = some x → x ∉ [3, 4] →
            out[j]? = some none)
    ∧ (∀ ids urv,
        (some ([3, 9], some [1, 1]) : Option (List ℕ × Option (List ℚ)))
            = some (ids, urv) →
        itemKnnCall ⟨[3, 4], none, [[(1, 1)], [(0, 1)]]⟩ false 20 1
            (some ([3, 9], some [1, 1])) [4, 7]
          = itemKnnCall ⟨[3, 4], none, [[(1, 1)], [(0, 1)]]⟩ false 20 1
              (some (knownQuery [3, 4] (ids, urv))) [4, 7])
    ∧ (∀ (um : UUModel) (e : Bool) (nn mn : ℕ) (ms : ℚ) (uid : ℕ)
        (qids : List ℕ) (qrv : Option (List ℚ)),
        (userKnnCall um e nn mn ms uid qids qrv [4, 7]).length
            = ([4, 7] : List ℕ).length
        ∧ ∀ (j : ℕ) (x : ℕ), (([4, 7] : List ℕ))[j]? = some x → x ∉ um.items_ →
            (userKnnCall um e nn mn ms uid qids qrv [4, 7])[j]? = some none) :=
  itemKnnCall_missing_entity_outcomes ⟨[3, 4], none, [[(1, 1)], [(0, 1)]]⟩ false 20 1
    (some ([3, 9], some [1, 1])) [4, 7]
    (by intro ids h; simp at h)
    (by decide)
    (by
      rintro ids rv h
      simp only [Option.some.injEq, Prod.mk.injEq] at h
      obtain ⟨h1, h2⟩ := h
      rw [← h1, ← h2]
      rfl)

/-- Counterexample to C8 as stated: `UserKNNScorer.__call__` does not silently
exclude unknown rated entities from the computation.  The trained model has
one neighbor user (who rated all four items 5, 5, 3, 3: centered ratings
`(1, 1, -1, -1)`, normalized vector `(1/2, 1/2, -1/2, -1/2)`) and the query
user rates item 10 with 5 and the unknown item 999 with 1.  With the unknown
item present, the query mean is 3, item 10's centered rating is 2, the
neighbor's similarity is 1 and item 11 scores `1 + 3 = 4`; with the unknown
item dropped (exactly `knownQuery` of the original query), the query mean is
5, the rating vector is all zero, no neighbor survives the threshold, and
item 11 scores NaN.  The two calls disagree, so the unknown rated entity was
not excluded from the computation. -/
theorem userKnn_unknown_rated_not_excluded_cex :
    knownQuery [10, 11, 12, 13] ([10, 999], some [5, 1]) = ([10], some [5])
    ∧ userKnnCall
        ⟨[1], [10, 11, 12, 13], some [4],
          [[(0, 1/2), (1, 1/2), (2, -1/2), (3, -1/2)]],
          [[(0, 1), (1, 1), (2, -1), (3, -1)]]⟩
        true 20 1 (1 / 1000000) 99 [10, 999] (some [5, 1]) [11] = [some 4]
    ∧ userKnnCall
        ⟨[1], [10, 11, 12, 13], some [4],
          [[(0, 1/2), (1, 1/2), (2, -1/2), (3, -1/2)]],
          [[(0, 1), (1, 1), (2, -1), (3, -1)]]⟩
        true 20 1 (1 / 1000000) 99 [10] (some [5]) [11] = [none]
    ∧ (some (4 : ℚ) ≠ (none : Option ℚ)) := by
  refine ⟨?_, ?_, ?_, by simp⟩
  · norm_num [knownQuery, vocabNumber, List.findIdx?_cons, List.findIdx?]
  · norm_num [userKnnCall, userKnnGetUserData, scatterRatings, sparseDot,
      scoreItemWithNeighbors, vocabNumber, List.findIdx?_cons, List.findIdx?,
      List.replicate, List.enum_cons, List.enumFrom, List.filter, List.find?,
      List.range_succ, List.filterMap_cons, List.filterMap_nil, List.getD,
      List.getElem?_cons_zero, List.getElem?_cons_succ]
  · norm_num [userKnnCall, userKnnGetUserData, scatterRatings, sparseDot,
      scoreItemWithNeighbors, vocabNumber, List.findIdx?_cons, List.findIdx?,
      List.replicate, List.enum_cons, List.enumFrom, List.filter, List.find?,
      List.range_succ, List.filterMap_cons, List.filterMap_nil, List.getD,
      List.getElem?_cons_zero, List.getElem?_cons_succ]
